import Mathlib

/-!
# vorteil `pkg/vcfg`: port-list negation, interface normalisation, list retraction

A shallow embedding of `src/pkg/vcfg/vcfg.go`.

Go slices are modelled as a backing array together with the length recorded in the
slice header (`Slice`).  `append(list[:i], list[i+1:]...)` never reallocates (the
capacity always suffices), so it rewrites the shared backing array in place and yields
a header that is one shorter; a callee that assigns the result to its own parameter
changes the array the caller sees, but not the caller's header.  Loops whose exit
depends on data (`for found { ... }`, `for { ... }`) carry a fuel budget and report
`Outcome.outOfFuel` when it is exhausted; a run that returns within a budget returns the
same value within every larger one (`negateProtocol_mono`).  A `range` over a Go map visits
its entries in an unspecified order, so `negate` takes the order as an argument.
-/

namespace Vcfg

/-! ## Strings -/

/-- Go's `a < b` on strings.  Go compares byte by byte; on UTF-8 text that is the
lexicographic order of the code points, which is what is computed here. -/
def strLess (a b : String) : Bool := decide (a.data < b.data)

/-- Go's `strings.HasPrefix(s, p)`. -/
def HasPrefix (s p : String) : Bool := p.data.isPrefixOf s.data

/-- Go's `strings.TrimPrefix(s, p)`: `s` without the leading `p`, or `s` itself. -/
def TrimPrefix (s p : String) : String :=
  if HasPrefix s p then String.mk (s.data.drop p.data.length) else s

/-! ## Outcomes and slices -/

/-- Result of running a piece of Go code: a value, a runtime panic on an index that is
out of range, or an exhausted loop budget. -/
inductive Outcome (α : Type) where
  | ok (a : α)
  | indexOutOfRange
  | outOfFuel
  deriving DecidableEq, Repr

/-- Sequencing of outcomes. -/
def Outcome.bind {α β : Type} (o : Outcome α) (f : α → Outcome β) : Outcome β :=
  match o with
  | .ok a => f a
  | .indexOutOfRange => .indexOutOfRange
  | .outOfFuel => .outOfFuel

/-- A Go `[]string` value: the backing array it points into and the header length.
The visible elements are the first `len` cells of `arr`; `nil` is `⟨[], 0⟩`. -/
structure Slice where
  arr : List String
  len : Nat
  deriving DecidableEq, Repr

/-- The elements a slice header shows. -/
def Slice.toList (s : Slice) : List String := s.arr.take s.len

/-- A freshly decoded slice: header length equal to the array length. -/
def Slice.ofList (l : List String) : Slice := ⟨l, l.length⟩

/-- The index expression `list[i]`. -/
def Slice.index (s : Slice) (i : Nat) : Outcome String :=
  if i < s.len then
    match s.arr[i]? with
    | some v => .ok v
    | none => .indexOutOfRange
  else .indexOutOfRange

/-- The expression `append(list[:i], list[i+1:]...)`: cells `i+1 .. len-1` move one place
to the left inside the backing array, the cell at `len-1` keeps its old content, and the
resulting header has length `len-1`. -/
def Slice.cut (s : Slice) (i : Nat) : Outcome Slice :=
  if i + 1 ≤ s.len ∧ s.len ≤ s.arr.length then
    .ok ⟨s.arr.take i ++ (s.arr.drop (i + 1)).take (s.len - (i + 1)) ++ s.arr.drop (s.len - 1),
         s.len - 1⟩
  else .indexOutOfRange

/-! ## `sort` package -/

/-- Loop of Go's `sort.Search(n, f)`: `for i < j { h := (i+j)/2; if !f(h) { i = h+1 } else { j = h } }`.
The first argument bounds the number of iterations; `j - i` shrinks every round. -/
def searchLoop (f : Nat → Bool) : Nat → Nat → Nat → Nat
  | 0, i, _ => i
  | fuel + 1, i, j =>
    if i < j then
      let h := (i + j) / 2
      if !f h then searchLoop f fuel (h + 1) j else searchLoop f fuel i h
    else i

/-- Go's `sort.Search(n, f)`. -/
def Search (n : Nat) (f : Nat → Bool) : Nat := searchLoop f n 0 n

/-- Go's `sort.SearchStrings(a, x)`: binary search for the first index with `a[i] >= x`
(sound only on a sorted `a`). -/
def SearchStrings (a : List String) (x : String) : Nat :=
  Search a.length (fun h => !strLess (a.getD h "") x)

/-- Go's `sort.Strings(a)` on the visible part of a slice, in place. -/
def sortStrings (s : Slice) : Slice :=
  ⟨(s.arr.take s.len).insertionSort (fun a b => !strLess b a) ++ s.arr.drop s.len, s.len⟩

/-! ## Network interfaces -/

/-- The `NetworkInterface` struct. -/
structure NetworkInterface where
  IP : String
  Mask : String
  Gateway : String
  UDP : Slice
  TCP : Slice
  HTTP : Slice
  HTTPS : Slice
  MTU : Nat
  DisableTCPSegmentationOffloading : Bool
  TCPDUMP : Bool
  deriving DecidableEq, Repr

/-- Which of the four port-list fields a `*[]string` points at. -/
inductive PortField where
  | udp | tcp | http | https
  deriving DecidableEq, Repr

/-- The key under which `negate` files a port-list pointer in its `protocols` map. -/
def PortField.protocol : PortField → String
  | .udp => "udp"
  | .tcp => "tcp"
  | .http => "http"
  | .https => "https"

/-- Read through a port-list pointer. -/
def NetworkInterface.get (nic : NetworkInterface) : PortField → Slice
  | .udp => nic.UDP
  | .tcp => nic.TCP
  | .http => nic.HTTP
  | .https => nic.HTTPS

/-- Write through a port-list pointer. -/
def NetworkInterface.set (nic : NetworkInterface) (p : PortField) (s : Slice) : NetworkInterface :=
  match p with
  | .udp => { nic with UDP := s }
  | .tcp => { nic with TCP := s }
  | .http => { nic with HTTP := s }
  | .https => { nic with HTTPS := s }

/-- Replace the backing array behind a port-list field, leaving the field's header length. -/
def NetworkInterface.setArr (nic : NetworkInterface) (p : PortField) (arr : List String) :
    NetworkInterface :=
  nic.set p ⟨arr, (nic.get p).len⟩

/-! ## `negateProtocol` and its helpers -/

/-- Go function `cullStringIfEmpty(list, i)`: the callee's `list = append(...)` is lost on return, so the
only effect is on the backing array, which is returned. -/
def cullStringIfEmpty (list : Slice) (i : Nat) : Outcome (List String) :=
  (list.index i).bind fun v =>
    if v == "" then (list.cut i).bind fun l => .ok l.arr else .ok list.arr

/-- Go function `cullMatchingItem(list, k)`: returns `found` and the backing array after the call. -/
def cullMatchingItem (list : Slice) (k : String) : Outcome (Bool × List String) :=
  let x := SearchStrings list.toList k
  if x < list.len then
    (list.index x).bind fun v =>
      if v == k then (list.cut x).bind fun l => .ok (true, l.arr) else .ok (false, list.arr)
  else .ok (false, list.arr)

/-- The loop `found = true; for found { found = cullMatchingItem(list, k) }`; the caller's
header `list` is the same in every round.  Returns the backing array. -/
def cullAll : Nat → Slice → String → Outcome (List String)
  | 0, _, _ => .outOfFuel
  | fuel + 1, list, k =>
    (cullMatchingItem list k).bind fun r =>
      if r.1 then cullAll fuel ⟨r.2, list.len⟩ k else .ok r.2

/-- Go function `cutFromSimilarProtocols(protocol, nic, &found, k)`; the flag `*found` is
false on return and the caller does not read it again. -/
def cutFromSimilarProtocols (fuel : Nat) (protocol : String) (nic : NetworkInterface)
    (k : String) : Outcome NetworkInterface :=
  if protocol != "tcp" then .ok nic
  else
    (cullAll fuel nic.HTTP k).bind fun a =>
      let nic := { nic with HTTP := ⟨a, nic.HTTP.len⟩ }
      (cullAll fuel nic.HTTPS k).bind fun b =>
        .ok { nic with HTTPS := ⟨b, nic.HTTPS.len⟩ }

/-- The `for { ... }` loop of `negateProtocol`.  The local `list` is the header of length
`len` over the backing array of `nic`'s field `portList`; `i` is the scan index. -/
def negateLoop (protocol : String) (portList : PortField) :
    Nat → NetworkInterface → Nat → Nat → Outcome NetworkInterface
  | 0, _, _, _ => .outOfFuel
  | fuel + 1, nic, len, i =>
    if i ≥ len then .ok (nic.set portList ⟨(nic.get portList).arr, len⟩)
    else
      (cullStringIfEmpty ⟨(nic.get portList).arr, len⟩ i).bind fun a =>
      let list : Slice := ⟨a, len⟩
      (list.index i).bind fun v =>
      if HasPrefix v "!" then
        let k := TrimPrefix v "!"
        (list.cut i).bind fun list =>
        (cullAll fuel list k).bind fun a =>
        (cutFromSimilarProtocols fuel protocol (nic.setArr portList a) k).bind fun nic =>
        negateLoop protocol portList fuel nic list.len i
      else
        (list.index i).bind fun w =>
        let x := SearchStrings list.toList w
        if x < i then
          (list.cut i).bind fun list =>
          negateLoop protocol portList fuel (nic.setArr portList list.arr) list.len i
        else negateLoop protocol portList fuel (nic.setArr portList a) len (i + 1)

/-- Go function `negateProtocol(nic, protocol, portList)`: the interface after the call. -/
def negateProtocol (fuel : Nat) (nic : NetworkInterface) (protocol : String)
    (portList : PortField) : Outcome NetworkInterface :=
  let list := sortStrings (nic.get portList)
  negateLoop protocol portList fuel (nic.setArr portList list.arr) list.len 0

/-! ## `VCFG.negate` -/

/-- The `VCFG` struct.  `other` stands for the exported fields besides `Networks`
(`Programs`, `System`, `Info`, `VM`, `NFS`, `Routing`, `Logging`, `Sysctl`); `modtime` is the
unexported time stamp. -/
structure VCFG (σ : Type) where
  Networks : List NetworkInterface
  other : σ
  modtime : Nat
  deriving DecidableEq, Repr

/-- The inner `for protocol, portList := range protocols` loop, visiting the map's four
entries in the given order. -/
def negateProtocols (fuel : Nat) : List PortField → NetworkInterface → Outcome NetworkInterface
  | [], nic => .ok nic
  | p :: ps, nic => (negateProtocol fuel nic p.protocol p).bind (negateProtocols fuel ps)

/-- The `if nic.IP == "" || ... else if nic.IP == "dhcp" ...` statement that ends the body of
the `for _, nic := range nics` loop, acting on the loop variable. -/
def negateIP (nic : NetworkInterface) : NetworkInterface :=
  if nic.IP == "" || nic.IP == "!" || nic.IP == "disabled" then
    { nic with IP := "", Mask := "", Gateway := "",
               UDP := ⟨[], 0⟩, TCP := ⟨[], 0⟩, HTTP := ⟨[], 0⟩, HTTPS := ⟨[], 0⟩ }
  else if nic.IP == "dhcp" then
    { nic with Mask := "", Gateway := "" }
  else nic

/-- One round of `for _, nic := range nics`.  The loop variable `nic` is a copy of the stored
entry: its scalar fields and slice headers are its own, the backing arrays of its four port
lists are the stored entry's.  Returns the stored entry as it is after the round (own
headers and scalars, arrays as the round left them) and the final value of the loop
variable, which the loop then drops. -/
def negateRound (fuel : Nat) (order : List PortField) (stored : NetworkInterface) :
    Outcome (NetworkInterface × NetworkInterface) :=
  (negateProtocols fuel order stored).bind fun nic =>
    .ok ({ stored with UDP := ⟨nic.UDP.arr, stored.UDP.len⟩,
                       TCP := ⟨nic.TCP.arr, stored.TCP.len⟩,
                       HTTP := ⟨nic.HTTP.arr, stored.HTTP.len⟩,
                       HTTPS := ⟨nic.HTTPS.arr, stored.HTTPS.len⟩ },
         negateIP nic)

/-- The loop `for _, nic := range nics`; `order n` is the order in which the `n`-th round
ranges over the `protocols` map. -/
def negateNics (fuel : Nat) (order : Nat → List PortField) :
    Nat → List NetworkInterface → Outcome (List NetworkInterface)
  | _, [] => .ok []
  | n, stored :: rest =>
    (negateRound fuel (order n) stored).bind fun r =>
      (negateNics fuel order (n + 1) rest).bind fun rs => .ok (r.1 :: rs)

/-- Method `(vcfg *VCFG) negate()`: the document as it is once the method has returned. -/
def VCFG.negate {σ : Type} (fuel : Nat) (order : Nat → List PortField) (vcfg : VCFG σ) :
    Outcome (VCFG σ) :=
  (negateNics fuel order 0 vcfg.Networks).bind fun ns => .ok { vcfg with Networks := ns }

/-- The orders in which a `range` over the four-entry `protocols` map can run. -/
def protocolOrders : List (List PortField) :=
  let keys := [PortField.udp, PortField.tcp, PortField.http, PortField.https]
  (keys.flatMap fun a => keys.flatMap fun b => keys.flatMap fun c => keys.map fun d => [a, b, c, d]).filter
    fun o => decide o.Nodup

/-- An interface with a static address and the given raw port lists. -/
def staticNic (udp tcp http https : List String) : NetworkInterface :=
  { IP := "10.0.0.2", Mask := "255.255.255.0", Gateway := "10.0.0.1",
    UDP := .ofList udp, TCP := .ofList tcp, HTTP := .ofList http, HTTPS := .ofList https,
    MTU := 0, DisableTCPSegmentationOffloading := false, TCPDUMP := false }

/-- A DHCP interface that still carries a mask and a gateway. -/
def dhcpNic : NetworkInterface :=
  { staticNic [] [] [] [] with IP := "dhcp" }

/-- A disabled interface that still carries addresses and a port. -/
def disabledNic : NetworkInterface :=
  { staticNic ["53"] [] [] [] with IP := "disabled" }

/-- An interface with every field that `negate` clears on a disabled interface cleared. -/
def clearedNic : NetworkInterface :=
  { IP := "", Mask := "", Gateway := "",
    UDP := ⟨[], 0⟩, TCP := ⟨[], 0⟩, HTTP := ⟨[], 0⟩, HTTPS := ⟨[], 0⟩,
    MTU := 0, DisableTCPSegmentationOffloading := false, TCPDUMP := false }

/-- A document holding the given interfaces and nothing else. -/
def docOf (nics : List NetworkInterface) : VCFG Unit :=
  { Networks := nics, other := (), modtime := 0 }

/-! ## `VCFG.Merge` -/

/-- Method `(vcfg *VCFG) Format`, which is what `fmt.Sprintf("%v", vcfg)` prints:
`json.MarshalIndent` of the exported fields (the parameter `marshal`, `none` for `err != nil`),
or the fixed failure text. -/
def VCFG.Format {σ : Type} (marshal : List NetworkInterface → σ → Option String)
    (vcfg : VCFG σ) : String :=
  match marshal vcfg.Networks vcfg.other with
  | none => "FAILED TO FORMAT VCFG FOR fmt!"
  | some data => data

/-- Method `(vcfg *VCFG) Merge(x *VCFG) error`.  The package-level function `Merge` is a parameter,
`now` is the reading of `time.Now()`.  The value returned is the document the local `vcfg`
points at when the method ends, i.e. the merged document with its time stamp set. -/
def VCFG.Merge {σ ε : Type} (marshal : List NetworkInterface → σ → Option String)
    (Merge : VCFG σ → VCFG σ → Except ε (VCFG σ)) (now : Nat) (vcfg x : VCFG σ) :
    Except ε (VCFG σ) :=
  let oldOriginalModtime := vcfg.modtime
  let oldOriginal := vcfg.Format marshal
  let oldOverwriteModtime := x.modtime
  let oldOverwrite := x.Format marshal
  match Merge vcfg x with
  | .error err => .error err
  | .ok x =>
    let vcfg := x
    let merged := vcfg.Format marshal
    if merged = oldOverwrite then .ok { vcfg with modtime := oldOverwriteModtime }
    else if merged = oldOriginal then .ok { vcfg with modtime := oldOriginalModtime }
    else .ok { vcfg with modtime := now }

/-! ## `sanitize` and the list merges -/

/-- The inner loop of `sanitize`, `for i := j; i >= 0; i-- { if all[i] == target { ...; break } }`,
started at `i`: the index it appends to `delInd`, if it finds one. -/
def scanBack (all : List String) (target : String) : Nat → Option Nat
  | 0 => if all[0]? = some target then some 0 else none
  | i + 1 => if all[i + 1]? = some target then some (i + 1) else scanBack all target i

/-- Body of the first loop of `sanitize` at index `j`: the new value of `delInd`. -/
def markStep (all : List String) (delInd : List Nat) (j : Nat) : List Nat :=
  let v := all.getD j ""
  if HasPrefix v "~" then
    let target := TrimPrefix v "~"
    let delInd :=
      match scanBack all target j with
      | some i => delInd ++ [i]
      | none => delInd
    delInd ++ [j]
  else delInd

/-- The first loop of `sanitize`: `delInd` after `for j := 0; j < len(all); j++ { ... }`. -/
def delIndices (all : List String) : List Nat :=
  (List.range all.length).foldl (markStep all) []

/-- Body of the second loop of `sanitize` at the pair `k, v`: the new value of `out`. -/
def emitStep (delInd : List Nat) (out : List String) (kv : Nat × String) : List String :=
  let cont := delInd.foldl (fun cont x => if x = kv.1 then true else cont) false
  if cont then out else out ++ [kv.2]

/-- Go function `sanitize(all)`. -/
def sanitize (all : List String) : List String :=
  let delInd := delIndices all
  all.enum.foldl (emitStep delInd) []

/-- Go function `mergeStringArray(x...)`. -/
def mergeStringArray (x : List (List String)) : List String :=
  sanitize (x.foldl (fun all z => all ++ z) [])

/-- Go function `mergeStringArrayExcludingDuplicateValues(x...)`; the state is `all` and the key set of
the map `done`. -/
def mergeStringArrayExcludingDuplicateValues (x : List (List String)) : List String :=
  sanitize
    (x.foldl (fun st z =>
      z.foldl (fun (st : List String × List String) y =>
        if y ∈ st.2 then st else (st.1 ++ [y], y :: st.2)) st) ([], [])).1

/-- The list `l` with its last occurrence of `t` taken out (`l` itself when `t` does not
occur): the reading of "cancel the nearest earlier occurrence" for a marker placed after `l`. -/
def removeLast (t : String) : List String → List String
  | [] => []
  | a :: l => if a = t ∧ t ∉ l then l else a :: removeLast t l

/-- Reading `l` from the left, the retraction marker of `a` is met before any occurrence of
`a` itself: the entry `a` placed in front of `l` is the one that marker cancels. -/
def retracted (a : String) : List String → Bool
  | [] => false
  | b :: l => if b = "~" ++ a then true else if b = a then false else retracted a l

/-- The loop `for _, y := range z { if _, ok := done[y]; !ok { ... } }` of
`mergeStringArrayExcludingDuplicateValues`, on the state `(all, keys of done)`. -/
def appendNew (st : List String × List String) (z : List String) : List String × List String :=
  z.foldl (fun (st : List String × List String) y =>
    if y ∈ st.2 then st else (st.1 ++ [y], y :: st.2)) st

/-- Lengths of the backing array and of the header behind each port-list field. -/
def shape (nic : NetworkInterface) (q : PortField) : Nat × Nat :=
  ((nic.get q).arr.length, (nic.get q).len)

/-- No header of the interface is longer than its backing array. -/
def wellFormed (nic : NetworkInterface) : Prop :=
  ∀ q, (nic.get q).len ≤ (nic.get q).arr.length

/-- The port list a successful run leaves behind the pointer `portList`. -/
def writtenBack (o : Outcome NetworkInterface) (portList : PortField) : Outcome (List String) :=
  o.bind fun nic => .ok (nic.get portList).toList

/-! ## Facts about the loops -/

/-- Once the header shows `["a"]` and the key is `"a"`, `cullMatchingItem` keeps reporting a
match without changing what the caller sees. -/
theorem cullMatchingItem_last (rest : List String) :
    cullMatchingItem ⟨"a" :: rest, 1⟩ "a" = .ok (true, "a" :: rest) := by
  have h : SearchStrings ["a"] "a" = 0 := by decide
  simp [cullMatchingItem, Slice.toList, Slice.index, Slice.cut, Outcome.bind, h]

/-- The loop `for found { found = cullMatchingItem(list, k) }` never ends when the header shows
exactly the key: every budget is used up. -/
theorem cullAll_last (rest : List String) (fuel : Nat) :
    cullAll fuel ⟨"a" :: rest, 1⟩ "a" = .outOfFuel := by
  induction fuel with
  | zero => rfl
  | succ n ih =>
    rw [cullAll, cullMatchingItem_last]
    exact ih

/-- The iteration bound of `Search` is never the reason the loop stops: one more round
changes nothing once the bound covers the width of the interval. -/
theorem searchLoop_succ (f : Nat → Bool) (fuel i j : Nat) (h : j - i ≤ fuel) :
    searchLoop f (fuel + 1) i j = searchLoop f fuel i j := by
  induction fuel generalizing i j with
  | zero =>
    have hij : ¬ i < j := by omega
    simp [searchLoop, hij]
  | succ n ih =>
    rw [searchLoop]
    conv_rhs => rw [searchLoop]
    by_cases hij : i < j
    · have h1 : j - ((i + j) / 2 + 1) ≤ n := by omega
      have h2 : (i + j) / 2 - i ≤ n := by omega
      simp only [hij, if_true]
      rw [ih _ _ h1, ih _ _ h2]
    · simp [hij]

/-- Every way of visiting the four map entries once each is among `protocolOrders`. -/
theorem protocolOrders_complete (o : List PortField) (hn : o.Nodup) (hl : o.length = 4) :
    o ∈ protocolOrders := by
  match o, hl with
  | [a, b, c, d], _ =>
    revert hn
    cases a <;> cases b <;> cases c <;> cases d <;> decide

/-! ## Budgets and index safety -/

/-- A sequenced run returns exactly when both parts return. -/
theorem Outcome.bind_eq_ok {α β : Type} (o : Outcome α) (g : α → Outcome β) (b : β) :
    o.bind g = .ok b ↔ ∃ a, o = .ok a ∧ g a = .ok b := by
  cases o <;> simp [Outcome.bind]

/-- A run of the `for found` loop that returns within a budget returns the same array within
any larger budget. -/
theorem cullAll_mono (f f' : Nat) (hf : f ≤ f') (list : Slice) (k : String) (a : List String)
    (h : cullAll f list k = .ok a) : cullAll f' list k = .ok a := by
  induction f generalizing f' list with
  | zero => simp [cullAll] at h
  | succ n ih =>
    obtain ⟨m, rfl⟩ : ∃ m, f' = m + 1 := ⟨f' - 1, by omega⟩
    rw [cullAll, Outcome.bind_eq_ok] at h
    obtain ⟨r, hr, h⟩ := h
    rw [cullAll, Outcome.bind_eq_ok]
    refine ⟨r, hr, ?_⟩
    by_cases hb : r.1 = true
    · rw [if_pos hb] at h ⊢
      exact ih m (by omega) _ h
    · rw [if_neg hb] at h ⊢
      exact h

/-- Budget monotonicity of `cutFromSimilarProtocols`. -/
theorem cutFromSimilarProtocols_mono (f f' : Nat) (hf : f ≤ f') (protocol : String)
    (nic : NetworkInterface) (k : String) (r : NetworkInterface)
    (h : cutFromSimilarProtocols f protocol nic k = .ok r) :
    cutFromSimilarProtocols f' protocol nic k = .ok r := by
  unfold cutFromSimilarProtocols at h ⊢
  by_cases hp : (protocol != "tcp") = true
  · rw [if_pos hp] at h ⊢
    exact h
  · rw [if_neg hp] at h ⊢
    rw [Outcome.bind_eq_ok] at h ⊢
    obtain ⟨a, ha, h⟩ := h
    refine ⟨a, cullAll_mono f f' hf _ _ _ ha, ?_⟩
    dsimp only at h ⊢
    rw [Outcome.bind_eq_ok] at h ⊢
    obtain ⟨b, hb, h⟩ := h
    exact ⟨b, cullAll_mono f f' hf _ _ _ hb, h⟩

/-- Budget monotonicity of the main loop of `negateProtocol`. -/
theorem negateLoop_mono (protocol : String) (portList : PortField) (f f' : Nat) (hf : f ≤ f')
    (nic : NetworkInterface) (len i : Nat) (r : NetworkInterface)
    (h : negateLoop protocol portList f nic len i = .ok r) :
    negateLoop protocol portList f' nic len i = .ok r := by
  induction f generalizing f' nic len i with
  | zero => simp [negateLoop] at h
  | succ n ih =>
    obtain ⟨m, rfl⟩ : ∃ m, f' = m + 1 := ⟨f' - 1, by omega⟩
    have hnm : n ≤ m := by omega
    rw [negateLoop] at h ⊢
    by_cases hi : i ≥ len
    · rw [if_pos hi] at h ⊢
      exact h
    · rw [if_neg hi] at h ⊢
      rw [Outcome.bind_eq_ok] at h ⊢
      obtain ⟨a, ha, h⟩ := h
      refine ⟨a, ha, ?_⟩
      dsimp only at h ⊢
      rw [Outcome.bind_eq_ok] at h ⊢
      obtain ⟨v, hv, h⟩ := h
      refine ⟨v, hv, ?_⟩
      by_cases hp : HasPrefix v "!" = true
      · rw [if_pos hp] at h ⊢
        rw [Outcome.bind_eq_ok] at h ⊢
        obtain ⟨l, hl, h⟩ := h
        refine ⟨l, hl, ?_⟩
        rw [Outcome.bind_eq_ok] at h ⊢
        obtain ⟨b, hb, h⟩ := h
        refine ⟨b, cullAll_mono n m hnm _ _ _ hb, ?_⟩
        rw [Outcome.bind_eq_ok] at h ⊢
        obtain ⟨c, hc, h⟩ := h
        exact ⟨c, cutFromSimilarProtocols_mono n m hnm _ _ _ _ hc, ih m hnm _ _ _ h⟩
      · rw [if_neg hp] at h ⊢
        rw [Outcome.bind_eq_ok] at h ⊢
        obtain ⟨w, hw, h⟩ := h
        refine ⟨w, hw, ?_⟩
        dsimp only at h ⊢
        by_cases hx : SearchStrings (Slice.toList ⟨a, len⟩) w < i
        · rw [if_pos hx] at h ⊢
          rw [Outcome.bind_eq_ok] at h ⊢
          obtain ⟨l, hl, h⟩ := h
          exact ⟨l, hl, ih m hnm _ _ _ h⟩
        · rw [if_neg hx] at h ⊢
          exact ih m hnm _ _ _ h

/-- A run of `negateProtocol` that returns within a budget returns the same interface within
any larger budget. -/
theorem negateProtocol_mono (f f' : Nat) (hf : f ≤ f') (nic : NetworkInterface)
    (protocol : String) (portList : PortField) (r : NetworkInterface)
    (h : negateProtocol f nic protocol portList = .ok r) :
    negateProtocol f' nic protocol portList = .ok r :=
  negateLoop_mono protocol portList f f' hf _ _ _ r h

/-- Reading a port-list field after a write through a pointer. -/
theorem get_set (nic : NetworkInterface) (p q : PortField) (s : Slice) :
    (nic.set p s).get q = if q = p then s else nic.get q := by
  cases p <;> cases q <;> rfl

/-- Swapping in an array of the same length keeps every length. -/
theorem shape_setArr (nic : NetworkInterface) (p : PortField) (a : List String)
    (ha : a.length = (nic.get p).arr.length) : shape (nic.setArr p a) = shape nic := by
  funext q
  unfold shape NetworkInterface.setArr
  rw [get_set]
  by_cases h : q = p
  · subst h; simp [ha]
  · simp [h]

/-- An index below the header length is in range. -/
theorem index_ok (s : Slice) (i : Nat) (hi : i < s.len) (hs : s.len ≤ s.arr.length) :
    ∃ v, s.index i = .ok v := by
  have hi' : i < s.arr.length := Nat.lt_of_lt_of_le hi hs
  exact ⟨s.arr[i], by simp [Slice.index, hi, List.getElem?_eq_getElem hi']⟩

/-- Cutting at an index below the header length succeeds and keeps the array length. -/
theorem cut_ok (s : Slice) (i : Nat) (hi : i < s.len) (hs : s.len ≤ s.arr.length) :
    ∃ l, s.cut i = .ok l ∧ l.arr.length = s.arr.length ∧ l.len = s.len - 1 := by
  have h : i + 1 ≤ s.len ∧ s.len ≤ s.arr.length := ⟨hi, hs⟩
  refine ⟨_, by rw [Slice.cut, if_pos h], ?_, rfl⟩
  simp only [List.length_append, List.length_take, List.length_drop]
  omega

/-- Within the header, `cullStringIfEmpty` returns and keeps the array length. -/
theorem cullStringIfEmpty_ok (s : Slice) (i : Nat) (hi : i < s.len) (hs : s.len ≤ s.arr.length) :
    ∃ a, cullStringIfEmpty s i = .ok a ∧ a.length = s.arr.length := by
  obtain ⟨v, hv⟩ := index_ok s i hi hs
  obtain ⟨l, hl, hlen, _⟩ := cut_ok s i hi hs
  unfold cullStringIfEmpty
  rw [hv]
  by_cases e : (v == "") = true
  · exact ⟨l.arr, by simp [Outcome.bind, e, hl], hlen⟩
  · exact ⟨s.arr, by simp [Outcome.bind, e], rfl⟩

/-- On a header that fits its array `cullMatchingItem` returns and keeps the array length. -/
theorem cullMatchingItem_ok (s : Slice) (k : String) (hs : s.len ≤ s.arr.length) :
    ∃ r, cullMatchingItem s k = .ok r ∧ r.2.length = s.arr.length := by
  unfold cullMatchingItem
  dsimp only
  by_cases hx : SearchStrings s.toList k < s.len
  · obtain ⟨v, hv⟩ := index_ok s _ hx hs
    obtain ⟨l, hl, hlen, _⟩ := cut_ok s _ hx hs
    rw [if_pos hx, hv]
    by_cases e : (v == k) = true
    · exact ⟨(true, l.arr), by simp [Outcome.bind, e, hl], hlen⟩
    · exact ⟨(false, s.arr), by simp [Outcome.bind, e], rfl⟩
  · rw [if_neg hx]
    exact ⟨(false, s.arr), rfl, rfl⟩

/-- The `for found` loop never indexes out of range and keeps the array length. -/
theorem cullAll_safe (f : Nat) (s : Slice) (k : String) (hs : s.len ≤ s.arr.length) :
    cullAll f s k ≠ .indexOutOfRange ∧
      ∀ a, cullAll f s k = .ok a → a.length = s.arr.length := by
  induction f generalizing s with
  | zero => simp [cullAll]
  | succ n ih =>
    obtain ⟨r, hr, hlen⟩ := cullMatchingItem_ok s k hs
    rw [cullAll, hr]
    by_cases hb : r.1 = true
    · have := ih ⟨r.2, s.len⟩ (by rw [hlen]; exact hs)
      simp only [Outcome.bind, if_pos hb]
      exact ⟨this.1, fun a ha => (this.2 a ha).trans hlen⟩
    · simp only [Outcome.bind, if_neg hb]
      exact ⟨by simp, fun a ha => by cases ha; exact hlen⟩

/-- Sequencing after a returned value. -/
theorem Outcome.bind_ok {α β : Type} (a : α) (g : α → Outcome β) :
    (Outcome.ok a).bind g = g a := rfl

/-- Fitting headers depend on the lengths only. -/
theorem wellFormed_of_shape (nic r : NetworkInterface) (h : shape r = shape nic)
    (hw : wellFormed nic) : wellFormed r := by
  intro q
  have hq := congrFun h q
  have h1 : (r.get q).arr.length = (nic.get q).arr.length := congrArg Prod.fst hq
  have h2 : (r.get q).len = (nic.get q).len := congrArg Prod.snd hq
  rw [h1, h2]
  exact hw q

/-- The cascade never indexes out of range and keeps every length. -/
theorem cutFromSimilarProtocols_safe (f : Nat) (protocol : String) (nic : NetworkInterface)
    (k : String) (hw : wellFormed nic) :
    cutFromSimilarProtocols f protocol nic k ≠ .indexOutOfRange ∧
      ∀ r, cutFromSimilarProtocols f protocol nic k = .ok r → shape r = shape nic := by
  unfold cutFromSimilarProtocols
  by_cases hp : (protocol != "tcp") = true
  · rw [if_pos hp]
    exact ⟨by simp, fun r hr => by cases hr; rfl⟩
  · rw [if_neg hp]
    have h1 := cullAll_safe f nic.HTTP k (hw .http)
    have h2 := cullAll_safe f nic.HTTPS k (hw .https)
    cases ha : cullAll f nic.HTTP k with
    | indexOutOfRange => exact absurd ha h1.1
    | outOfFuel => simp [Outcome.bind]
    | ok a =>
      have hla := h1.2 a ha
      simp only [Outcome.bind]
      cases hb : cullAll f nic.HTTPS k with
      | indexOutOfRange => exact absurd hb h2.1
      | outOfFuel => simp
      | ok b =>
        have hlb := h2.2 b hb
        refine ⟨by simp, fun r hr => ?_⟩
        cases hr
        funext q
        cases q <;> simp [shape, NetworkInterface.get, hla, hlb]

/-- The main loop never indexes out of range and ends, if it ends, with fitting headers. -/
theorem negateLoop_safe (protocol : String) (p : PortField) (f : Nat) (nic : NetworkInterface)
    (len i : Nat) (hw : wellFormed nic) (hlen : len ≤ (nic.get p).arr.length) :
    negateLoop protocol p f nic len i ≠ .indexOutOfRange ∧
      ∀ r, negateLoop protocol p f nic len i = .ok r → wellFormed r := by
  induction f generalizing nic len i with
  | zero => simp [negateLoop]
  | succ n ih =>
    rw [negateLoop]
    by_cases hi : i ≥ len
    · rw [if_pos hi]
      refine ⟨by simp, fun r hr => ?_⟩
      cases hr
      intro q
      rw [get_set]
      by_cases hq : q = p
      · rw [if_pos hq]; exact hlen
      · rw [if_neg hq]; exact hw q
    · rw [if_neg hi]
      have hi' : i < len := Nat.lt_of_not_ge hi
      obtain ⟨a, ha, hla⟩ := cullStringIfEmpty_ok ⟨(nic.get p).arr, len⟩ i hi' hlen
      have hla' : len ≤ a.length := by rw [hla]; exact hlen
      obtain ⟨v, hv⟩ := index_ok ⟨a, len⟩ i hi' hla'
      obtain ⟨l, hl, hll, hllen⟩ := cut_ok ⟨a, len⟩ i hi' hla'
      rw [ha, Outcome.bind_ok]
      dsimp only
      rw [hv, Outcome.bind_ok]
      have hl1 : l.arr.length = (nic.get p).arr.length := hll.trans hla
      have hl2 : l.len ≤ l.arr.length := by
        rw [hllen, hll]
        exact Nat.le_trans (Nat.sub_le _ _) hla'
      by_cases hp : HasPrefix v "!" = true
      · rw [if_pos hp, hl, Outcome.bind_ok]
        have hc := cullAll_safe n l (TrimPrefix v "!") hl2
        cases hb : cullAll n l (TrimPrefix v "!") with
        | indexOutOfRange => exact absurd hb hc.1
        | outOfFuel => simp [Outcome.bind]
        | ok b =>
          rw [Outcome.bind_ok]
          have hlb : b.length = (nic.get p).arr.length := (hc.2 b hb).trans hl1
          have hs1 := shape_setArr nic p b hlb
          have hw1 := wellFormed_of_shape nic _ hs1 hw
          have hd := cutFromSimilarProtocols_safe n protocol (nic.setArr p b)
            (TrimPrefix v "!") hw1
          cases hc2 : cutFromSimilarProtocols n protocol (nic.setArr p b) (TrimPrefix v "!") with
          | indexOutOfRange => exact absurd hc2 hd.1
          | outOfFuel => simp [Outcome.bind]
          | ok c =>
            rw [Outcome.bind_ok]
            have hs2 : shape c = shape nic := (hd.2 c hc2).trans hs1
            have hw2 := wellFormed_of_shape nic c hs2 hw
            have hcl : (c.get p).arr.length = (nic.get p).arr.length :=
              congrArg Prod.fst (congrFun hs2 p)
            exact ih c l.len i hw2 (by rw [hcl, ← hl1]; exact hl2)
      · rw [if_neg hp, Outcome.bind_ok]
        by_cases hx : SearchStrings (Slice.toList ⟨a, len⟩) v < i
        · rw [if_pos hx, hl, Outcome.bind_ok]
          have hs1 := shape_setArr nic p l.arr hl1
          have hw1 := wellFormed_of_shape nic _ hs1 hw
          have hcl : ((nic.setArr p l.arr).get p).arr.length = (nic.get p).arr.length :=
            congrArg Prod.fst (congrFun hs1 p)
          exact ih _ l.len i hw1 (by rw [hcl, ← hl1]; exact hl2)
        · rw [if_neg hx]
          have hs1 := shape_setArr nic p a hla
          have hw1 := wellFormed_of_shape nic _ hs1 hw
          have hcl : ((nic.setArr p a).get p).arr.length = (nic.get p).arr.length :=
            congrArg Prod.fst (congrFun hs1 p)
          exact ih _ len (i + 1) hw1 (by rw [hcl]; exact hlen)

/-- The model of `negateProtocol` has no run that ends in an index out of range: on an
interface whose headers fit their arrays every run returns a like interface or exhausts its
budget. -/
theorem negateProtocol_safe (f : Nat) (nic : NetworkInterface) (protocol : String)
    (p : PortField) (hw : wellFormed nic) :
    negateProtocol f nic protocol p ≠ .indexOutOfRange ∧
      ∀ r, negateProtocol f nic protocol p = .ok r → wellFormed r := by
  unfold negateProtocol
  have hsl : (sortStrings (nic.get p)).arr.length = (nic.get p).arr.length := by
    have := hw p
    simp only [sortStrings, List.length_append, List.length_insertionSort, List.length_take,
      List.length_drop]
    omega
  have hs1 := shape_setArr nic p _ hsl
  have hw1 := wellFormed_of_shape nic _ hs1 hw
  have hcl : ((nic.setArr p (sortStrings (nic.get p)).arr).get p).arr.length
      = (nic.get p).arr.length := congrArg Prod.fst (congrFun hs1 p)
  exact negateLoop_safe protocol p f _ _ 0 hw1 (by rw [hcl]; exact hw p)

/-! ## Port-list negation: C1 to C6 -/

/-- C1 (the code departs from it): in the sorted list the marker `"! x"` sits after the plain
entry `" x"` it cancels; removing that entry shifts `"!b"` below the scan index, so it is
never visited: `negateProtocol` writes back `["!b", "b", "c"]`, which still holds `"b"` and
`"!b"` although `"!b"` occurs in the input. -/
theorem C1_negation_skipped :
    "!" ++ "b" ∈ [" x", "! x", "!b", "b", "c"] ∧
    writtenBack (negateProtocol 20 (staticNic [" x", "! x", "!b", "b", "c"] [] [] []) "udp" .udp)
        .udp = .ok ["!b", "b", "c"] ∧
    "b" ∈ ["!b", "b", "c"] ∧ "!" ++ "b" ∈ ["!b", "b", "c"] := by
  decide

/-- C2 (the code departs from it): with TCP `["80", "8080", "!80"]` and a raw HTTP list
`["80", "443"]`, `negateProtocol(nic, "tcp", &nic.TCP)` returns with TCP `["8080"]` and HTTP
still `["80", "443"]` (the binary search over the unsorted HTTP list misses `"80"`); and on
the interface with TCP `["a", "!a"]` and HTTP `["a"]` the call uses up every budget. -/
theorem C2_cascade_missed :
    "!" ++ "80" ∈ ["80", "8080", "!80"] ∧
    (negateProtocol 20 (staticNic [] ["80", "8080", "!80"] ["80", "443"] []) "tcp" .tcp).bind
        (fun nic => .ok (nic.TCP.toList, nic.HTTP.toList, nic.HTTPS.toList))
      = .ok (["8080"], ["80", "443"], []) ∧
    ∀ fuel, negateProtocol fuel (staticNic [] ["a", "!a"] ["a"] []) "tcp" .tcp = .outOfFuel := by
  refine ⟨by decide, by decide, ?_⟩
  intro fuel
  cases fuel with
  | zero => rfl
  | succ n =>
    show (cullAll n ⟨["a", "a"], 1⟩ "a").bind _ = _
    rw [cullAll_last]
    rfl

/-- C3 (the code departs from it): on the port list `["a", "!a"]`, behind any of the four
fields, `negateProtocol` does not return: whatever the budget, the run ends by exhausting it
(the loop `for found` keeps finding `"a"` in the last cell). -/
theorem C3_negateProtocol_diverges (fuel : Nat) (p : PortField) :
    negateProtocol fuel ((staticNic [] [] [] []).set p (.ofList ["a", "!a"])) p.protocol p
      = .outOfFuel := by
  cases fuel with
  | zero => rfl
  | succ n =>
    cases p <;>
    · show (cullAll n ⟨["a", "a"], 1⟩ "a").bind _ = _
      rw [cullAll_last]
      rfl

/-- C4 (the code departs from it): for every order of the four protocols, `negate` leaves the
stored interface with UDP `["53", "53"]` (a duplicate) and TCP `["!80"]` (a negation entry): the
resolved headers are written to the loop variable only. -/
theorem C4_stored_lists_unresolved :
    ∀ order ∈ protocolOrders,
      (docOf [staticNic ["53", "53"] ["!80"] [] []]).negate 20 (fun _ => order)
        = .ok (docOf [staticNic ["53", "53"] ["!80"] [] []]) := by
  decide

/-- Instance of C4 at the order udp, tcp, http, https. -/
theorem C4_stored_lists_unresolved_witness :
    [PortField.udp, PortField.tcp, PortField.http, PortField.https] ∈ protocolOrders ∧
    (docOf [staticNic ["53", "53"] ["!80"] [] []]).negate 20
        (fun _ => [PortField.udp, PortField.tcp, PortField.http, PortField.https])
      = .ok (docOf [staticNic ["53", "53"] ["!80"] [] []]) :=
  ⟨by decide, C4_stored_lists_unresolved _ (by decide)⟩

/-- C5 (the code departs from it): for every order of the four protocols, `negate` returns
the document with a `"dhcp"` interface (mask `"255.255.255.0"`) and a `"disabled"` interface
(UDP `["53"]`) unchanged, while the loop variable of each round did get the cleared fields. -/
theorem C5_stored_interface_not_normalized :
    ∀ order ∈ protocolOrders,
      (docOf [dhcpNic, disabledNic]).negate 20 (fun _ => order)
          = .ok (docOf [dhcpNic, disabledNic]) ∧
      negateRound 20 order dhcpNic = .ok (dhcpNic, { dhcpNic with Mask := "", Gateway := "" }) ∧
      negateRound 20 order disabledNic = .ok (disabledNic, clearedNic) := by
  decide

/-- Instance of C5 at the order udp, tcp, http, https: the stored mask stays `"255.255.255.0"`. -/
theorem C5_stored_interface_not_normalized_witness :
    [PortField.udp, PortField.tcp, PortField.http, PortField.https] ∈ protocolOrders ∧
    (docOf [dhcpNic, disabledNic]).negate 20
        (fun _ => [PortField.udp, PortField.tcp, PortField.http, PortField.https])
      = .ok (docOf [dhcpNic, disabledNic]) ∧ dhcpNic.Mask = "255.255.255.0" :=
  ⟨by decide, (C5_stored_interface_not_normalized _ (by decide)).1, by decide⟩

/-- C6 (the code departs from it): with no negation marker in the list, `negateProtocol`
writes back `[""]` for `[""]` and `["", "80"]` for `["", "", "80"]`: an empty entry
survives. -/
theorem C6_empty_entry_survives :
    writtenBack (negateProtocol 20 (staticNic [""] [] [] []) "udp" .udp) .udp = .ok [""] ∧
    writtenBack (negateProtocol 20 (staticNic ["", "", "80"] [] [] []) "udp" .udp) .udp
      = .ok ["", "80"] := by
  decide

/-! ## `sanitize`: C7 to C9 -/

/-- The flag `cont` computed by the inner loop of the second pass is membership in `delInd`. -/
theorem cont_eq_mem (d : List Nat) (k : Nat) (c : Bool) :
    d.foldl (fun cont x => if x = k then true else cont) c = (c || decide (k ∈ d)) := by
  induction d generalizing c with
  | nil => simp
  | cons x d ih =>
    rw [List.foldl_cons, ih]
    by_cases h : x = k
    · simp [h]
    · have h' : ¬ k = x := fun e => h e.symm
      simp [h, h']

/-- Body of the second pass, with the flag read as membership. -/
theorem emitStep_eq (d : List Nat) (out : List String) (kv : Nat × String) :
    emitStep d out kv = if kv.1 ∈ d then out else out ++ [kv.2] := by
  unfold emitStep
  dsimp only
  rw [cont_eq_mem]
  by_cases h : kv.1 ∈ d <;> simp [h]

/-- Body of the first pass at a `~` entry. -/
theorem markStep_of_marker (all : List String) (d : List Nat) (j : Nat)
    (hp : HasPrefix (all.getD j "") "~" = true) :
    markStep all d j =
      (match scanBack all (TrimPrefix (all.getD j "") "~") j with
        | some i => d ++ [i]
        | none => d) ++ [j] := by
  unfold markStep
  dsimp only
  rw [if_pos hp]

/-- Body of the first pass at a plain entry. -/
theorem markStep_of_plain (all : List String) (d : List Nat) (j : Nat)
    (hp : HasPrefix (all.getD j "") "~" = false) : markStep all d j = d := by
  unfold markStep
  dsimp only
  rw [if_neg (by rw [hp]; exact Bool.false_ne_true)]

/-- The second pass of `sanitize` keeps, in order, the values whose index is not in `delInd`. -/
theorem foldl_emitStep (d : List Nat) (l : List (Nat × String)) (out : List String) :
    l.foldl (emitStep d) out
      = out ++ (l.filter fun kv => decide (kv.1 ∉ d)).map Prod.snd := by
  induction l generalizing out with
  | nil => simp
  | cons kv l ih =>
    rw [List.foldl_cons, ih]
    by_cases h : kv.1 ∈ d
    · simp [emitStep_eq, h]
    · simp [emitStep_eq, h]

/-- Closed form of `sanitize`. -/
theorem sanitize_eq_filter (all : List String) :
    sanitize all = (all.enum.filter fun kv => decide (kv.1 ∉ delIndices all)).map Prod.snd := by
  simp [sanitize, foldl_emitStep]

/-- What `sanitize` returns is a sublist of its argument. -/
theorem sanitize_sublist (all : List String) : (sanitize all).Sublist all := by
  rw [sanitize_eq_filter]
  have h := (List.filter_sublist (p := fun kv : Nat × String => decide (kv.1 ∉ delIndices all))
    all.enum).map Prod.snd
  rwa [List.enum_map_snd] at h

/-- An index already marked stays marked. -/
theorem mem_foldl_markStep_of_mem (all : List String) (js : List Nat) (d : List Nat) (x : Nat)
    (hx : x ∈ d) : x ∈ js.foldl (markStep all) d := by
  induction js generalizing d with
  | nil => simpa using hx
  | cons j js ih =>
    rw [List.foldl_cons]
    apply ih
    unfold markStep
    dsimp only
    split
    · split <;> simp [hx]
    · exact hx

/-- The first pass marks every visited index that holds a `~` entry. -/
theorem mem_foldl_markStep (all : List String) (js : List Nat) (d : List Nat) (j : Nat)
    (hj : j ∈ js) (hp : HasPrefix (all.getD j "") "~" = true) :
    j ∈ js.foldl (markStep all) d := by
  induction js generalizing d with
  | nil => simp at hj
  | cons i js ih =>
    rw [List.foldl_cons]
    rcases List.mem_cons.1 hj with rfl | h
    · apply mem_foldl_markStep_of_mem
      rw [markStep_of_marker all d j hp]
      simp
    · exact ih _ h

/-- Every index of a `~` entry is in `delInd`. -/
theorem mem_delIndices (all : List String) (j : Nat) (hj : j < all.length)
    (hp : HasPrefix (all.getD j "") "~" = true) : j ∈ delIndices all :=
  mem_foldl_markStep all _ [] j (List.mem_range.2 hj) hp

/-- No entry of `sanitize all` starts with `~`. -/
theorem sanitize_no_marker (all : List String) (s : String) (hs : s ∈ sanitize all) :
    HasPrefix s "~" = false := by
  rw [sanitize_eq_filter] at hs
  obtain ⟨kv, hkv, rfl⟩ := List.mem_map.1 hs
  obtain ⟨hmem, hnot⟩ := List.mem_filter.1 hkv
  have hget : all[kv.1]? = some kv.2 := List.mem_enum_iff_getElem?.1 hmem
  have hlt : kv.1 < all.length := List.fst_lt_of_mem_enum hmem
  by_contra hp
  have hp' : HasPrefix (all.getD kv.1 "") "~" = true := by
    simpa [List.getD, hget] using hp
  have := mem_delIndices all kv.1 hlt hp'
  simp [this] at hnot

/-- Without a `~` entry among the visited indices the first pass marks nothing. -/
theorem foldl_markStep_of_no_marker (all : List String) (js : List Nat) (d : List Nat)
    (h : ∀ j ∈ js, HasPrefix (all.getD j "") "~" = false) :
    js.foldl (markStep all) d = d := by
  induction js generalizing d with
  | nil => rfl
  | cons j js ih =>
    rw [List.foldl_cons]
    have hj : markStep all d j = d := markStep_of_plain all d j (h j (List.mem_cons_self _ _))
    rw [hj]
    exact ih d fun i hi => h i (List.mem_cons_of_mem _ hi)

/-- The cell at an index below the length is an element of the list. -/
theorem getD_mem (all : List String) (j : Nat) (hj : j < all.length) : all.getD j "" ∈ all := by
  have : all.getD j "" = all[j] := by simp [List.getD, hj]
  rw [this]
  exact List.getElem_mem hj

/-- A list without `~` entries is returned as it is. -/
theorem sanitize_of_no_marker (all : List String)
    (h : ∀ s ∈ all, HasPrefix s "~" = false) : sanitize all = all := by
  have hd : delIndices all = [] :=
    foldl_markStep_of_no_marker all _ [] fun j hj =>
      h _ (getD_mem all j (List.mem_range.1 hj))
  rw [sanitize_eq_filter, hd]
  simp [List.enum_map_snd]

/-- A retraction marker starts with `~`. -/
theorem hasPrefix_marker (t : String) : HasPrefix ("~" ++ t) "~" = true := by
  have h : ("~" : String).data = ['~'] := rfl
  simp [HasPrefix, h]

/-- Stripping the `~` of a retraction marker gives back its target. -/
theorem trimPrefix_marker (t : String) : TrimPrefix ("~" ++ t) "~" = t := by
  have h : ("~" : String).data = ['~'] := rfl
  unfold TrimPrefix
  rw [if_pos (hasPrefix_marker t)]
  simp [h]

/-- A retraction marker differs from its target. -/
theorem marker_ne (t : String) : "~" ++ t ≠ t := by
  intro e
  have h := congrArg String.length e
  simp [String.length_append] at h
  have : ("~" : String).length = 1 := rfl
  omega

/-- When the backward scan finds nothing, no cell at or below its start holds the target. -/
theorem scanBack_none (all : List String) (t : String) (j : Nat)
    (h : scanBack all t j = none) : ∀ i, i ≤ j → all[i]? ≠ some t := by
  induction j with
  | zero =>
    intro i hi
    have hi0 : i = 0 := Nat.le_zero.1 hi
    subst hi0
    intro e
    simp [scanBack, e] at h
  | succ j ih =>
    intro i hi
    by_cases e : all[j + 1]? = some t
    · simp [scanBack, e] at h
    · rw [scanBack, if_neg e] at h
      rcases Nat.lt_or_ge i (j + 1) with hlt | hge
      · exact ih h i (Nat.lt_succ_iff.1 hlt)
      · have : i = j + 1 := Nat.le_antisymm hi hge
        rw [this]
        exact e

/-- The backward scan returns the highest index at or below its start that holds the target. -/
theorem scanBack_some (all : List String) (t : String) (j i : Nat)
    (h : scanBack all t j = some i) :
    i ≤ j ∧ all[i]? = some t ∧ ∀ i', i < i' → i' ≤ j → all[i']? ≠ some t := by
  induction j with
  | zero =>
    by_cases e : all[0]? = some t
    · simp [scanBack, e] at h
      subst h
      exact ⟨Nat.le_refl _, e, fun i' h1 h2 => absurd h1 (by omega)⟩
    · simp [scanBack, e] at h
  | succ j ih =>
    by_cases e : all[j + 1]? = some t
    · simp [scanBack, e] at h
      subst h
      exact ⟨Nat.le_refl _, e, fun i' h1 h2 => absurd h1 (by omega)⟩
    · rw [scanBack, if_neg e] at h
      obtain ⟨h1, h2, h3⟩ := ih h
      refine ⟨Nat.le_succ_of_le h1, h2, fun i' hi hi' => ?_⟩
      rcases Nat.lt_or_ge i' (j + 1) with hlt | hge
      · exact h3 i' hi (Nat.lt_succ_iff.1 hlt)
      · have : i' = j + 1 := Nat.le_antisymm hi' hge
        rw [this]
        exact e

/-- Dropping the cell at the last position of `t` is `removeLast t`. -/
theorem filter_enumFrom_eq_removeLast (t : String) (l : List String) (s i : Nat)
    (hi : l[i]? = some t) (hlast : ∀ i', i < i' → l[i']? ≠ some t) :
    ((l.enumFrom s).filter fun kv => decide (kv.1 ≠ s + i)).map Prod.snd = removeLast t l := by
  induction l generalizing s i with
  | nil => simp at hi
  | cons a l ih =>
    cases i with
    | zero =>
      have ha : a = t := by simpa using hi
      have hnot : t ∉ l := by
        intro hm
        obtain ⟨n, hn, e⟩ := List.getElem_of_mem hm
        apply hlast (n + 1) (Nat.succ_pos _)
        simp [List.getElem?_eq_getElem hn, e]
      have hkeep : (l.enumFrom (s + 1)).filter (fun kv => decide (kv.1 ≠ s + 0))
          = l.enumFrom (s + 1) := by
        apply List.filter_eq_self.2
        intro kv hkv
        have := List.le_fst_of_mem_enumFrom hkv
        simp
        omega
      simp only [List.enumFrom_cons, removeLast]
      rw [if_pos ⟨ha, hnot⟩, List.filter_cons_of_neg (by simp), hkeep]
      exact List.enumFrom_map_snd _ _
    | succ i =>
      have hi' : l[i]? = some t := by simpa using hi
      have hmem : t ∈ l := List.getElem?_mem hi'
      have hlast' : ∀ i', i < i' → l[i']? ≠ some t := by
        intro i' h1
        have := hlast (i' + 1) (Nat.succ_lt_succ h1)
        simpa using this
      simp only [List.enumFrom_cons, removeLast]
      rw [if_neg (fun h => h.2 hmem), List.filter_cons_of_pos (by simp)]
      have e : s + (i + 1) = (s + 1) + i := by omega
      rw [List.map_cons, e, ih (s + 1) i hi' hlast']

/-- When `t` does not occur, `removeLast t` changes nothing. -/
theorem removeLast_of_not_mem (t : String) (l : List String) (h : t ∉ l) :
    removeLast t l = l := by
  induction l with
  | nil => rfl
  | cons a l ih =>
    have ha : a ≠ t := fun e => h (e ▸ List.mem_cons_self _ _)
    have hl : t ∉ l := fun hm => h (List.mem_cons_of_mem _ hm)
    simp [removeLast, ha, ih hl]

/-- The marks left by the first pass on a plain list followed by one marker. -/
theorem delIndices_append_marker (L : List String) (t : String)
    (hL : ∀ s ∈ L, HasPrefix s "~" = false) :
    delIndices (L ++ ["~" ++ t]) =
      (match scanBack (L ++ ["~" ++ t]) t L.length with
        | some i => [i]
        | none => []) ++ [L.length] := by
  have hlen : (L ++ ["~" ++ t]).length = L.length + 1 := by simp
  have hlast : (L ++ ["~" ++ t]).getD L.length "" = "~" ++ t := by simp [List.getD]
  have hfront : (List.range L.length).foldl (markStep (L ++ ["~" ++ t])) [] = [] := by
    apply foldl_markStep_of_no_marker
    intro j hj
    have hj' : j < L.length := List.mem_range.1 hj
    have e : (L ++ ["~" ++ t]).getD j "" = L.getD j "" := by
      simp [List.getD, List.getElem?_append_left hj']
    rw [e]
    exact hL _ (getD_mem L j hj')
  unfold delIndices
  rw [hlen, List.range_succ, List.foldl_append, hfront, List.foldl_cons, List.foldl_nil,
    markStep_of_marker _ _ _ (by rw [hlast]; exact hasPrefix_marker t), hlast, trimPrefix_marker]
  cases scanBack (L ++ ["~" ++ t]) t L.length <;> rfl

/-- Core of C7: `sanitize` on a plain list followed by one marker. -/
theorem sanitize_append_marker (L : List String) (t : String)
    (hL : ∀ s ∈ L, HasPrefix s "~" = false) :
    sanitize (L ++ ["~" ++ t]) = removeLast t L := by
  have hcell : (L ++ ["~" ++ t])[L.length]? = some ("~" ++ t) := by simp
  have hne : (L ++ ["~" ++ t])[L.length]? ≠ some t := by
    rw [hcell]
    intro e
    exact marker_ne t (Option.some.inj e)
  rw [sanitize_eq_filter, delIndices_append_marker L t hL, List.enum_append, List.filter_append,
    List.map_append]
  have htail : ∀ d : List Nat,
      (List.filter (fun kv : Nat × String => decide (kv.1 ∉ d ++ [L.length]))
        (List.enumFrom L.length ["~" ++ t])) = [] := by
    intro d
    simp
  rw [htail, List.map_nil, List.append_nil]
  cases hs : scanBack (L ++ ["~" ++ t]) t L.length with
  | none =>
    have hno := scanBack_none _ _ _ hs
    have hnot : t ∉ L := by
      intro hm
      obtain ⟨n, hn, e⟩ := List.getElem_of_mem hm
      apply hno n (Nat.le_of_lt hn)
      rw [List.getElem?_append_left hn, List.getElem?_eq_getElem hn, e]
    rw [removeLast_of_not_mem t L hnot]
    have hkeep : L.enum.filter (fun kv => decide (kv.1 ∉ ([] : List Nat) ++ [L.length])) = L.enum := by
      apply List.filter_eq_self.2
      intro kv hkv
      have := List.fst_lt_of_mem_enum hkv
      simp
      omega
    simp only [hkeep]
    exact List.enum_map_snd L
  | some i =>
    obtain ⟨h1, h2, h3⟩ := scanBack_some _ _ _ _ hs
    have hi : i < L.length := by
      rcases Nat.lt_or_ge i L.length with h | h
      · exact h
      · have e : i = L.length := Nat.le_antisymm h1 h
        rw [e] at h2
        exact absurd h2 hne
    have hLi : L[i]? = some t := by rwa [List.getElem?_append_left hi] at h2
    have hlast : ∀ i', i < i' → L[i']? ≠ some t := by
      intro i' hlt
      rcases Nat.lt_or_ge i' L.length with h | h
      · have := h3 i' hlt (Nat.le_of_lt h)
        rwa [List.getElem?_append_left h] at this
      · rw [List.getElem?_eq_none h]
        exact Option.noConfusion
    have hcongr : L.enum.filter (fun kv => decide (kv.1 ∉ [i] ++ [L.length]))
        = (L.enumFrom 0).filter (fun kv => decide (kv.1 ≠ 0 + i)) := by
      apply List.filter_congr
      intro kv hkv
      have := List.fst_lt_of_mem_enum hkv
      have hn : kv.1 ≠ L.length := Nat.ne_of_lt this
      simp [hn]
    simp only [hcongr]
    exact filter_enumFrom_eq_removeLast t L 0 i hLi hlast

/-- C7: for a list `L` without `~` entries and any `t`, `sanitize (L ++ ["~" ++ t])`, which is
also `mergeStringArray(L, ["~" ++ t])`, is `L` with its last occurrence of `t` removed, and is
`L` itself when `t` does not occur in `L`. -/
theorem C7_retraction_cancels_nearest (L : List String) (t : String)
    (hL : ∀ s ∈ L, HasPrefix s "~" = false) :
    sanitize (L ++ ["~" ++ t]) = removeLast t L ∧
    mergeStringArray [L, ["~" ++ t]] = sanitize (L ++ ["~" ++ t]) ∧
    (t ∉ L → sanitize (L ++ ["~" ++ t]) = L) := by
  refine ⟨sanitize_append_marker L t hL, by simp [mergeStringArray], fun h => ?_⟩
  rw [sanitize_append_marker L t hL, removeLast_of_not_mem t L h]

/-- The recursive `removeLast` agrees with erasing the first occurrence in the reversed list. -/
theorem removeLast_eq_reverse_erase (t : String) (l : List String) :
    removeLast t l = (l.reverse.erase t).reverse := by
  induction l with
  | nil => rfl
  | cons a l ih =>
    rw [removeLast, List.reverse_cons, List.erase_append]
    by_cases hm : t ∈ l
    · have hm' : t ∈ l.reverse := List.mem_reverse.2 hm
      rw [if_neg (fun h => h.2 hm), if_pos hm', ih]
      simp
    · have hm' : t ∉ l.reverse := fun h => hm (List.mem_reverse.1 h)
      rw [if_neg hm']
      by_cases ha : a = t
      · rw [if_pos ⟨ha, hm⟩]
        simp [ha]
      · rw [if_neg (fun h => ha h.1), removeLast_of_not_mem t l hm]
        simp [List.erase_cons, ha]

/-- Instance of C7 at `L = ["x", "y", "x"]`, `t = "x"`, with the two results of the spec's
examples, `sanitize ["x", "~x"] = []` and `sanitize ["~x"] = []`. -/
theorem C7_retraction_cancels_nearest_witness :
    sanitize (["x", "y", "x"] ++ ["~" ++ "x"]) = ["x", "y"] ∧
    sanitize ["x", "~x"] = [] ∧ sanitize ["~x"] = [] :=
  ⟨(C7_retraction_cancels_nearest ["x", "y", "x"] "x" (by decide)).1.trans (by decide),
   by decide, by decide⟩

/-- C8: `sanitize` is idempotent. -/
theorem C8_sanitize_idempotent (L : List String) : sanitize (sanitize L) = sanitize L :=
  sanitize_of_no_marker (sanitize L) (sanitize_no_marker L)

/-- C9: no entry of `sanitize L`, hence of a list returned by `mergeStringArray` or
`mergeStringArrayExcludingDuplicateValues`, starts with `~`, and the entries of `sanitize L`
are entries of `L` in their original relative order. -/
theorem C9_no_marker_survives (L : List String) (x : List (List String)) :
    (∀ s ∈ sanitize L, HasPrefix s "~" = false) ∧
    (sanitize L).Sublist L ∧
    (∀ s ∈ mergeStringArray x, HasPrefix s "~" = false) ∧
    (∀ s ∈ mergeStringArrayExcludingDuplicateValues x, HasPrefix s "~" = false) :=
  ⟨sanitize_no_marker L, sanitize_sublist L, sanitize_no_marker _, sanitize_no_marker _⟩

/-- C10: when the package function `Merge` yields `M` for receiver `A` and argument `B`,
`VCFG.Merge` ends with the merged document carrying `B`'s time if `M` prints like `B` did,
else `A`'s time if `M` prints like `A` did, else the current time (the printed form does not
involve the time stamps); in particular merging `A` with itself, when the result prints like
`A`, keeps `A`'s time. -/
theorem C10_merge_modtime {σ ε : Type} (marshal : List NetworkInterface → σ → Option String)
    (Merge : VCFG σ → VCFG σ → Except ε (VCFG σ)) (now : Nat) (A B M : VCFG σ)
    (hM : Merge A B = .ok M) :
    (∀ t : Nat, ({ M with modtime := t } : VCFG σ).Format marshal = M.Format marshal) ∧
    VCFG.Merge marshal Merge now A B
      = .ok { M with modtime :=
          if M.Format marshal = B.Format marshal then B.modtime
          else if M.Format marshal = A.Format marshal then A.modtime
          else now } ∧
    (B = A → M.Format marshal = A.Format marshal →
      VCFG.Merge marshal Merge now A B = .ok { M with modtime := A.modtime }) := by
  refine ⟨fun _ => rfl, ?_, ?_⟩
  · unfold VCFG.Merge
    simp only [hM]
    split_ifs <;> rfl
  · intro hB hF
    subst hB
    unfold VCFG.Merge
    simp [hM, hF]

/-- Instance of C10: receiver with time 3, argument with time 5, a `Merge` that returns its
second argument and a printer that prints every document alike: the merged document gets
time 5, not the current time 7. -/
theorem C10_merge_modtime_witness :
    VCFG.Merge (fun _ _ => some "{}") (fun _ b => (Except.ok b : Except Unit (VCFG Unit))) 7
        ⟨[], (), 3⟩ ⟨[], (), 5⟩ = .ok ⟨[], (), 5⟩ :=
  (C10_merge_modtime (fun _ _ => some "{}") (fun _ b => (Except.ok b : Except Unit (VCFG Unit))) 7
    ⟨[], (), 3⟩ ⟨[], (), 5⟩ ⟨[], (), 5⟩ rfl).2.1

/-! ## A recursive reading of `sanitize` -/

/-- The marks of the first pass: an index is marked when it holds a `~` entry or is what the
backward scan from a `~` entry finds. -/
theorem mem_foldl_markStep_iff (all : List String) (js : List Nat) (d : List Nat) (x : Nat) :
    x ∈ js.foldl (markStep all) d ↔
      x ∈ d ∨ ∃ j ∈ js, HasPrefix (all.getD j "") "~" = true ∧
        (x = j ∨ scanBack all (TrimPrefix (all.getD j "") "~") j = some x) := by
  induction js generalizing d with
  | nil => simp
  | cons i js ih =>
    rw [List.foldl_cons, ih]
    by_cases hp : HasPrefix (all.getD i "") "~" = true
    · rw [markStep_of_marker all d i hp]
      constructor
      · rintro (h | ⟨j, hj, h1, h2⟩)
        · rw [List.mem_append, List.mem_singleton] at h
          rcases h with h | h
          · cases hs : scanBack all (TrimPrefix (all.getD i "") "~") i with
            | none =>
              rw [hs] at h
              exact Or.inl h
            | some k =>
              rw [hs] at h
              rw [List.mem_append, List.mem_singleton] at h
              rcases h with h | h
              · exact Or.inl h
              · exact Or.inr ⟨i, List.mem_cons_self _ _, hp, Or.inr (by rw [h]; exact hs)⟩
          · exact Or.inr ⟨i, List.mem_cons_self _ _, hp, Or.inl h⟩
        · exact Or.inr ⟨j, List.mem_cons_of_mem _ hj, h1, h2⟩
      · rintro (h | ⟨j, hj, h1, h2⟩)
        · left
          rw [List.mem_append]
          left
          cases scanBack all (TrimPrefix (all.getD i "") "~") i with
          | none => exact h
          | some k => exact List.mem_append_left _ h
        · rcases List.mem_cons.1 hj with rfl | hj
          · left
            rw [List.mem_append, List.mem_singleton]
            rcases h2 with h2 | h2
            · exact Or.inr h2
            · left
              rw [h2]
              simp
          · exact Or.inr ⟨j, hj, h1, h2⟩
    · have hp' : HasPrefix (all.getD i "") "~" = false := by simpa using hp
      rw [markStep_of_plain all d i hp']
      constructor
      · rintro (h | ⟨j, hj, h1, h2⟩)
        · exact Or.inl h
        · exact Or.inr ⟨j, List.mem_cons_of_mem _ hj, h1, h2⟩
      · rintro (h | ⟨j, hj, h1, h2⟩)
        · exact Or.inl h
        · rcases List.mem_cons.1 hj with rfl | hj
          · rw [hp'] at h1
            exact absurd h1 Bool.false_ne_true
          · exact Or.inr ⟨j, hj, h1, h2⟩

/-- Membership in `delInd` after the first pass of `sanitize`. -/
theorem mem_delIndices_iff (all : List String) (x : Nat) :
    x ∈ delIndices all ↔
      ∃ j, j < all.length ∧ HasPrefix (all.getD j "") "~" = true ∧
        (x = j ∨ scanBack all (TrimPrefix (all.getD j "") "~") j = some x) := by
  unfold delIndices
  rw [mem_foldl_markStep_iff]
  simp [List.mem_range]

/-- The backward scan in a list with one more cell in front. -/
theorem scanBack_cons_succ (a : String) (l : List String) (t : String) (j : Nat) :
    scanBack (a :: l) t (j + 1) =
      match scanBack l t j with
      | some i => some (i + 1)
      | none => if a = t then some 0 else none := by
  induction j with
  | zero =>
    by_cases h : l[0]? = some t
    · simp [scanBack, h]
    · by_cases ha : a = t <;> simp [scanBack, h, ha]
  | succ j ih =>
    rw [scanBack]
    by_cases h : l[j + 1]? = some t
    · simp [scanBack, h]
    · have h' : ¬ (a :: l)[j + 1 + 1]? = some t := by simpa using h
      rw [if_neg h', ih]
      conv_rhs => rw [scanBack, if_neg h]

/-- The backward scan from the first cell. -/
theorem scanBack_cons_zero (a : String) (l : List String) (t : String) :
    scanBack (a :: l) t 0 = if a = t then some 0 else none := by
  simp [scanBack]

/-- The backward scan finds nothing exactly when no cell at or below its start holds the
target. -/
theorem scanBack_eq_none_iff (all : List String) (t : String) (j : Nat) :
    scanBack all t j = none ↔ ∀ i, i ≤ j → all[i]? ≠ some t := by
  constructor
  · exact scanBack_none all t j
  · intro h
    cases hs : scanBack all t j with
    | none => rfl
    | some i =>
      obtain ⟨h1, h2, _⟩ := scanBack_some all t j i hs
      exact absurd h2 (h i h1)

/-- An entry that starts with `~` is the marker of what is left once the `~` is stripped. -/
theorem marker_eq (s : String) (h : HasPrefix s "~" = true) : "~" ++ TrimPrefix s "~" = s := by
  have hd : ("~" : String).data = ['~'] := rfl
  unfold TrimPrefix
  rw [if_pos h]
  apply String.ext
  rw [String.data_append, hd]
  unfold HasPrefix at h
  rw [hd] at h
  cases hs : s.data with
  | nil => rw [hs] at h; simp at h
  | cons c cs =>
    rw [hs] at h
    have hc' : '~' = c := by simpa using h
    have hc : c = '~' := hc'.symm
    simp [hc]

/-- An entry is the marker of `a` exactly when it starts with `~` and strips to `a`. -/
theorem eq_marker_iff (s a : String) :
    s = "~" ++ a ↔ HasPrefix s "~" = true ∧ TrimPrefix s "~" = a := by
  constructor
  · rintro rfl
    exact ⟨hasPrefix_marker a, trimPrefix_marker a⟩
  · rintro ⟨h1, rfl⟩
    exact (marker_eq s h1).symm

/-- The cell read by `getD` inside the list. -/
theorem getD_eq_of_getElem? (l : List String) (j : Nat) (s : String) (h : l[j]? = some s) :
    l.getD j "" = s := by
  simp [List.getD, h]

/-- What `retracted` computes, in terms of positions. -/
theorem retracted_iff (a : String) (l : List String) :
    retracted a l = true ↔
      ∃ j : Nat, l[j]? = some ("~" ++ a) ∧ ∀ i : Nat, i ≤ j → l[i]? ≠ some a := by
  induction l with
  | nil => simp [retracted]
  | cons b l ih =>
    rw [retracted]
    by_cases hb : b = "~" ++ a
    · rw [if_pos hb]
      refine ⟨fun _ => ⟨0, by simp [hb], fun i hi => ?_⟩, fun _ => rfl⟩
      have : i = 0 := Nat.le_zero.1 hi
      subst this
      simp only [List.getElem?_cons_zero, ne_eq, Option.some.injEq]
      rw [hb]
      exact marker_ne a
    · rw [if_neg hb]
      by_cases ha : b = a
      · rw [if_pos ha]
        constructor
        · intro h
          exact absurd h Bool.false_ne_true
        · rintro ⟨j, _, h⟩
          have h0 := h 0 (Nat.zero_le _)
          simp [ha] at h0
      · rw [if_neg ha, ih]
        constructor
        · rintro ⟨j, h1, h2⟩
          refine ⟨j + 1, by simpa using h1, fun i hi => ?_⟩
          cases i with
          | zero => simpa using ha
          | succ i => simpa using h2 i (Nat.le_of_succ_le_succ hi)
        · rintro ⟨j, h1, h2⟩
          cases j with
          | zero =>
            exfalso
            apply hb
            simpa using h1
          | succ j =>
            refine ⟨j, by simpa using h1, fun i hi => ?_⟩
            simpa using h2 (i + 1) (Nat.succ_le_succ hi)

/-- Marks behind the first cell are the marks of the tail, moved by one. -/
theorem succ_mem_delIndices_cons (a : String) (l : List String) (k : Nat) :
    k + 1 ∈ delIndices (a :: l) ↔ k ∈ delIndices l := by
  rw [mem_delIndices_iff, mem_delIndices_iff]
  constructor
  · rintro ⟨j, hj, hp, h⟩
    cases j with
    | zero =>
      rcases h with h | h
      · exact absurd h (Nat.succ_ne_zero k)
      · rw [scanBack_cons_zero] at h
        split at h <;> simp at h
    | succ j =>
      refine ⟨j, by simpa using hj, by simpa [List.getD] using hp, ?_⟩
      rcases h with h | h
      · exact Or.inl (Nat.succ.inj h)
      · right
        have e : (a :: l).getD (j + 1) "" = l.getD j "" := by simp [List.getD]
        rw [e, scanBack_cons_succ] at h
        cases hs : scanBack l (TrimPrefix (l.getD j "") "~") j with
        | none =>
          rw [hs] at h
          by_cases ha : a = TrimPrefix (l.getD j "") "~" <;> simp [ha] at h
        | some i =>
          rw [hs] at h
          have hi : i = k := by simpa using h
          rw [hi]
  · rintro ⟨j, hj, hp, h⟩
    have e : (a :: l).getD (j + 1) "" = l.getD j "" := by simp [List.getD]
    refine ⟨j + 1, by simpa using hj, by rw [e]; exact hp, ?_⟩
    rcases h with h | h
    · exact Or.inl (by rw [h])
    · right
      rw [e, scanBack_cons_succ, h]

/-- The first cell is marked exactly when it holds a `~` entry or is retracted by the tail. -/
theorem zero_mem_delIndices_cons (a : String) (l : List String) :
    0 ∈ delIndices (a :: l) ↔ HasPrefix a "~" = true ∨ retracted a l = true := by
  rw [mem_delIndices_iff, retracted_iff]
  constructor
  · rintro ⟨j, hj, hp, h⟩
    cases j with
    | zero => exact Or.inl (by simpa [List.getD] using hp)
    | succ j =>
      right
      have e : (a :: l).getD (j + 1) "" = l.getD j "" := by simp [List.getD]
      rw [e] at hp h
      have hj' : j < l.length := by simpa using hj
      rcases h with h | h
      · exact absurd h (Nat.succ_ne_zero j).symm
      · rw [scanBack_cons_succ] at h
        cases hs : scanBack l (TrimPrefix (l.getD j "") "~") j with
        | some i =>
          rw [hs] at h
          simp at h
        | none =>
          rw [hs] at h
          by_cases ha : a = TrimPrefix (l.getD j "") "~"
          · have hcell : l[j]? = some (l.getD j "") := by
              simp [List.getD, List.getElem?_eq_getElem hj']
            have hm : l.getD j "" = "~" ++ a := (eq_marker_iff _ _).2 ⟨hp, ha.symm⟩
            refine ⟨j, by rw [hcell, hm], ?_⟩
            rw [ha]
            exact (scanBack_eq_none_iff _ _ _).1 hs
          · rw [if_neg ha] at h
            simp at h
  · rintro (hp | ⟨j, h1, h2⟩)
    · exact ⟨0, by simp, by simpa [List.getD] using hp, Or.inl rfl⟩
    · have hj : j < l.length := by
        rcases Nat.lt_or_ge j l.length with h | h
        · exact h
        · rw [List.getElem?_eq_none h] at h1
          simp at h1
      have e : (a :: l).getD (j + 1) "" = "~" ++ a := by
        simp [List.getD, h1]
      refine ⟨j + 1, by simpa using hj, by rw [e]; exact hasPrefix_marker a, Or.inr ?_⟩
      rw [e, trimPrefix_marker, scanBack_cons_succ, (scanBack_eq_none_iff _ _ _).2 h2]
      simp

/-- Filtering an enumeration by index does not depend on where the count starts, as long as
the predicate is moved along. -/
theorem filter_enumFrom_shift (l : List String) (s s' : Nat) (P Q : Nat → Bool)
    (h : ∀ k, P (s + k) = Q (s' + k)) :
    ((l.enumFrom s).filter fun kv => P kv.1).map Prod.snd
      = ((l.enumFrom s').filter fun kv => Q kv.1).map Prod.snd := by
  induction l generalizing s s' with
  | nil => rfl
  | cons b l ih =>
    have h0 : P s = Q s' := by simpa using h 0
    have hstep : ∀ k, P (s + 1 + k) = Q (s' + 1 + k) := by
      intro k
      have := h (k + 1)
      rwa [show s + (k + 1) = s + 1 + k by omega, show s' + (k + 1) = s' + 1 + k by omega] at this
    simp only [List.enumFrom_cons, List.filter_cons, h0]
    cases Q s' <;> simp [ih (s + 1) (s' + 1) hstep]

/-- A recursive reading of `sanitize`: the first entry is dropped when it is a marker or when
the rest retracts it, and the rest is sanitized on its own. -/
theorem sanitize_cons (a : String) (l : List String) :
    sanitize (a :: l) =
      if HasPrefix a "~" = true ∨ retracted a l = true then sanitize l else a :: sanitize l := by
  have htail : ((l.enumFrom 1).filter fun kv => decide (kv.1 ∉ delIndices (a :: l))).map Prod.snd
      = sanitize l := by
    rw [sanitize_eq_filter]
    apply filter_enumFrom_shift l 1 0 (fun k => decide (k ∉ delIndices (a :: l)))
      (fun k => decide (k ∉ delIndices l))
    intro k
    have := succ_mem_delIndices_cons a l k
    simp only [Nat.zero_add, Nat.add_comm 1 k, this]
  rw [sanitize_eq_filter, List.enum_cons]
  by_cases h0 : HasPrefix a "~" = true ∨ retracted a l = true
  · rw [if_pos h0, List.filter_cons_of_neg, htail]
    simpa using (zero_mem_delIndices_cons a l).2 h0
  · rw [if_neg h0, List.filter_cons_of_pos, List.map_cons, htail]
    simpa using fun h => h0 ((zero_mem_delIndices_cons a l).1 h)

/-! ## Repeated override: C11 -/

/-- The merge without duplicates is `sanitize` of what the `appendNew` rounds collect. -/
theorem mergeExcluding_eq (x : List (List String)) :
    mergeStringArrayExcludingDuplicateValues x = sanitize (x.foldl appendNew ([], [])).1 := rfl

/-- One `appendNew` round on an entry already recorded. -/
theorem appendNew_cons_of_mem (st : List String × List String) (y : String) (z : List String)
    (h : y ∈ st.2) : appendNew st (y :: z) = appendNew st z := by
  simp [appendNew, h]

/-- One `appendNew` round on a new entry. -/
theorem appendNew_cons_of_not_mem (st : List String × List String) (y : String)
    (z : List String) (h : y ∉ st.2) :
    appendNew st (y :: z) = appendNew (st.1 ++ [y], y :: st.2) z := by
  simp [appendNew, h]

/-- What a round of `appendNew` does when `done` records exactly the entries of `all`: it
appends entries of `z` that `all` lacks, ends with every entry of `z` present, and keeps `all`
free of duplicates. -/
theorem appendNew_spec (z : List String) (st : List String × List String)
    (hinv : ∀ s, s ∈ st.2 ↔ s ∈ st.1) :
    (∀ s, s ∈ (appendNew st z).2 ↔ s ∈ (appendNew st z).1) ∧
    (∃ W, (appendNew st z).1 = st.1 ++ W ∧ ∀ w ∈ W, w ∈ z ∧ w ∉ st.1) ∧
    (∀ y ∈ z, y ∈ (appendNew st z).1) ∧
    (st.1.Nodup → (appendNew st z).1.Nodup) := by
  induction z generalizing st with
  | nil =>
    refine ⟨hinv, ⟨[], by simp [appendNew], by simp⟩, by simp, fun h => h⟩
  | cons y z ih =>
    by_cases hy : y ∈ st.2
    · rw [appendNew_cons_of_mem st y z hy]
      obtain ⟨h1, ⟨W, hW, hW'⟩, h3, h4⟩ := ih st hinv
      refine ⟨h1, ⟨W, hW, fun w hw => ⟨List.mem_cons_of_mem _ (hW' w hw).1, (hW' w hw).2⟩⟩,
        fun s hs => ?_, h4⟩
      rcases List.mem_cons.1 hs with rfl | hs
      · rw [hW]
        exact List.mem_append_left _ ((hinv s).1 hy)
      · exact h3 s hs
    · rw [appendNew_cons_of_not_mem st y z hy]
      have hy1 : y ∉ st.1 := fun h => hy ((hinv y).2 h)
      have hinv' : ∀ s, s ∈ (st.1 ++ [y], y :: st.2).2 ↔ s ∈ (st.1 ++ [y], y :: st.2).1 := by
        intro s
        simp only [List.mem_cons, List.mem_append, List.not_mem_nil, or_false, hinv s]
        exact Or.comm
      obtain ⟨h1, ⟨W, hW, hW'⟩, h3, h4⟩ := ih (st.1 ++ [y], y :: st.2) hinv'
      refine ⟨h1, ⟨y :: W, by rw [hW]; simp, fun w hw => ?_⟩, fun s hs => ?_, fun hn => ?_⟩
      · rcases List.mem_cons.1 hw with rfl | hw
        · exact ⟨List.mem_cons_self _ _, hy1⟩
        · exact ⟨List.mem_cons_of_mem _ (hW' w hw).1,
            fun h => (hW' w hw).2 (List.mem_append_left _ h)⟩
      · rcases List.mem_cons.1 hs with rfl | hs
        · rw [hW]
          simp
        · exact h3 s hs
      · apply h4
        show (st.1 ++ [y]).Nodup
        rw [List.nodup_append]
        exact ⟨hn, List.nodup_singleton y, by
          intro s hs hs'
          rw [List.mem_singleton] at hs'
          exact hy1 (hs' ▸ hs)⟩

/-- A round of `appendNew` over a duplicate-free list of new entries appends it whole. -/
theorem appendNew_of_nodup (z : List String) (st : List String × List String)
    (hz : z.Nodup) (hnew : ∀ y ∈ z, y ∉ st.2) :
    appendNew st z = (st.1 ++ z, z.reverse ++ st.2) := by
  induction z generalizing st with
  | nil => simp [appendNew]
  | cons y z ih =>
    obtain ⟨hy, hz'⟩ := List.nodup_cons.1 hz
    rw [appendNew_cons_of_not_mem st y z (hnew y (List.mem_cons_self _ _)), ih _ hz']
    · simp
    · intro s hs
      simp only [List.mem_cons, not_or]
      exact ⟨fun e => hy (e ▸ hs), hnew s (List.mem_cons_of_mem _ hs)⟩

/-- A retracted entry has its marker in the rest of the list. -/
theorem mem_of_retracted (a : String) (l : List String) (h : retracted a l = true) :
    "~" ++ a ∈ l := by
  induction l with
  | nil => simp [retracted] at h
  | cons b l ih =>
    rw [retracted] at h
    by_cases hb : b = "~" ++ a
    · rw [hb]
      exact List.mem_cons_self _ _
    · rw [if_neg hb] at h
      by_cases ha : b = a
      · rw [if_pos ha] at h
        exact absurd h Bool.false_ne_true
      · rw [if_neg ha] at h
        exact List.mem_cons_of_mem _ (ih h)

/-- An entry that does not occur again is retracted as soon as its marker follows. -/
theorem retracted_of_mem (a : String) (l : List String) (ha : a ∉ l) (hm : "~" ++ a ∈ l) :
    retracted a l = true := by
  induction l with
  | nil => simp at hm
  | cons b l ih =>
    rw [retracted]
    by_cases hb : b = "~" ++ a
    · rw [if_pos hb]
    · have hba : b ≠ a := fun e => ha (e ▸ List.mem_cons_self _ _)
      rw [if_neg hb, if_neg hba]
      apply ih (fun h => ha (List.mem_cons_of_mem _ h))
      rcases List.mem_cons.1 hm with h | h
      · exact absurd h.symm hb
      · exact h

/-- Whatever `sanitize` keeps of the tail, it keeps with one more entry in front. -/
theorem mem_sanitize_cons_of_mem (a : String) (l : List String) (s : String)
    (h : s ∈ sanitize l) : s ∈ sanitize (a :: l) := by
  rw [sanitize_cons]
  split
  · exact h
  · exact List.mem_cons_of_mem _ h

/-- A plain entry whose marker occurs nowhere in the list is kept by `sanitize`. -/
theorem mem_sanitize_of_no_marker (l : List String) (b : String) (hb : b ∈ l)
    (hp : HasPrefix b "~" = false) (hm : "~" ++ b ∉ l) : b ∈ sanitize l := by
  induction l with
  | nil => simp at hb
  | cons a l ih =>
    rcases List.mem_cons.1 hb with rfl | hb'
    · rw [sanitize_cons, if_neg]
      · exact List.mem_cons_self _ _
      · rintro (h | h)
        · rw [hp] at h
          exact absurd h Bool.false_ne_true
        · exact hm (List.mem_cons_of_mem _ (mem_of_retracted _ l h))
    · exact mem_sanitize_cons_of_mem a l b (ih hb' fun h => hm (List.mem_cons_of_mem _ h))

/-- In a duplicate-free list, an entry followed by its marker is not kept by `sanitize`. -/
theorem not_sublist_of_mem_sanitize (l : List String) (r : String) (hn : l.Nodup)
    (hr : r ∈ sanitize l) : ¬ [r, "~" ++ r].Sublist l := by
  induction l with
  | nil => simp
  | cons a l ih =>
    obtain ⟨ha, hl⟩ := List.nodup_cons.1 hn
    intro hsub
    rw [List.sublist_cons_iff] at hsub
    rw [sanitize_cons] at hr
    have hcase : (r = a ∧ retracted a l ≠ true) ∨ r ∈ sanitize l := by
      split at hr
      · exact Or.inr hr
      · rename_i hk
        rcases List.mem_cons.1 hr with h | h
        · exact Or.inl ⟨h, fun e => hk (Or.inr e)⟩
        · exact Or.inr h
    rcases hcase with ⟨rfl, hnr⟩ | hrl
    · rcases hsub with h | ⟨t, ht, hsub⟩
      · exact ha (h.subset (List.mem_cons_self _ _))
      · have ht' : t = ["~" ++ r] := (List.cons.inj ht).2.symm
        rw [ht'] at hsub
        exact hnr (retracted_of_mem r l ha (List.singleton_sublist.1 hsub))
    · rcases hsub with h | ⟨t, ht, _⟩
      · exact ih hl hrl h
      · have hra : r = a := (List.cons.inj ht).1
        exact ha (hra ▸ (sanitize_sublist l).subset hrl)

/-- A list of plain entries followed by markers that cancel none of them: `sanitize` returns
the plain part. -/
theorem sanitize_append_markers (R W : List String)
    (hR : ∀ r ∈ R, HasPrefix r "~" = false) (hW : ∀ w ∈ W, HasPrefix w "~" = true)
    (hRW : ∀ r ∈ R, "~" ++ r ∉ W) : sanitize (R ++ W) = R := by
  induction R with
  | nil =>
    rw [List.nil_append]
    clear hR hRW
    induction W with
    | nil => rfl
    | cons w W ih =>
      rw [sanitize_cons, if_pos (Or.inl (hW w (List.mem_cons_self _ _)))]
      exact ih fun s hs => hW s (List.mem_cons_of_mem _ hs)
  | cons r R ih =>
    rw [List.cons_append, sanitize_cons, if_neg, ih
      (fun s hs => hR s (List.mem_cons_of_mem _ hs))
      (fun s hs => hRW s (List.mem_cons_of_mem _ hs))]
    rintro (h | h)
    · rw [hR r (List.mem_cons_self _ _)] at h
      exact absurd h Bool.false_ne_true
    · rcases List.mem_append.1 (mem_of_retracted r _ h) with hm | hm
      · have := hR _ (List.mem_cons_of_mem _ hm)
        rw [hasPrefix_marker] at this
        exact absurd this (by decide)
      · exact hRW r (List.mem_cons_self _ _) hm

/-- C11 as stated fails: merging `[]` with `["~x", "x"]` gives `["x"]`, and merging that
result with `["~x", "x"]` again gives `[]` (the second `"x"` is a duplicate and is left out
before `sanitize` runs, so the marker cancels the `"x"` that was kept); likewise merging
`["~x", "x"]` with `["~x"]` gives `["x"]` and then `[]`. -/
theorem C11_repeated_override_counterexample :
    mergeStringArrayExcludingDuplicateValues [[], ["~x", "x"]] = ["x"] ∧
    mergeStringArrayExcludingDuplicateValues
        [mergeStringArrayExcludingDuplicateValues [[], ["~x", "x"]], ["~x", "x"]] = [] ∧
    mergeStringArrayExcludingDuplicateValues
        [mergeStringArrayExcludingDuplicateValues [[], ["~x", "x"]], ["~x", "x"]]
      ≠ mergeStringArrayExcludingDuplicateValues [[], ["~x", "x"]] ∧
    mergeStringArrayExcludingDuplicateValues [["~x", "x"], ["~x"]] = ["x"] ∧
    mergeStringArrayExcludingDuplicateValues
        [mergeStringArrayExcludingDuplicateValues [["~x", "x"], ["~x"]], ["~x"]] = [] := by
  decide

/-- The entries a round of `appendNew` appends come from `z` in the order they have there. -/
theorem appendNew_sublist (z : List String) (st : List String × List String) :
    ∃ W, (appendNew st z).1 = st.1 ++ W ∧ W.Sublist z := by
  induction z generalizing st with
  | nil => exact ⟨[], by simp [appendNew], List.Sublist.refl _⟩
  | cons y z ih =>
    by_cases hy : y ∈ st.2
    · rw [appendNew_cons_of_mem st y z hy]
      obtain ⟨W, hW, hs⟩ := ih st
      exact ⟨W, hW, hs.cons y⟩
    · rw [appendNew_cons_of_not_mem st y z hy]
      obtain ⟨W, hW, hs⟩ := ih (st.1 ++ [y], y :: st.2)
      exact ⟨y :: W, by rw [hW]; simp, hs.cons₂ y⟩

/-- Two different entries of a list occur in it in one order or the other. -/
theorem pair_sublist_of_mem (l : List String) (a b : String) (hab : a ≠ b) (ha : a ∈ l)
    (hb : b ∈ l) : [a, b].Sublist l ∨ [b, a].Sublist l := by
  induction l with
  | nil => simp at ha
  | cons c l ih =>
    rcases List.mem_cons.1 ha with rfl | ha'
    · rcases List.mem_cons.1 hb with h | hb'
      · exact absurd h.symm hab
      · exact Or.inl ((List.singleton_sublist.2 hb').cons₂ a)
    · rcases List.mem_cons.1 hb with rfl | hb'
      · exact Or.inr ((List.singleton_sublist.2 ha').cons₂ b)
      · rcases ih ha' hb' with h | h
        · exact Or.inl (h.cons c)
        · exact Or.inr (h.cons c)

/-- In a duplicate-free list where every plain entry is followed by its marker, `sanitize`
keeps nothing. -/
theorem sanitize_eq_nil (W : List String) (hn : W.Nodup)
    (h : ∀ w ∈ W, HasPrefix w "~" = false → [w, "~" ++ w].Sublist W) : sanitize W = [] := by
  induction W with
  | nil => rfl
  | cons a W ih =>
    obtain ⟨ha, hW⟩ := List.nodup_cons.1 hn
    have htail : sanitize W = [] := by
      apply ih hW
      intro w hw hp
      rcases List.sublist_cons_iff.1 (h w (List.mem_cons_of_mem _ hw) hp) with hs | ⟨t, ht, _⟩
      · exact hs
      · exact absurd ((List.cons.inj ht).1 ▸ hw) ha
    rw [sanitize_cons, if_pos, htail]
    by_cases hp : HasPrefix a "~" = true
    · exact Or.inl hp
    · right
      have hp' : HasPrefix a "~" = false := by simpa using hp
      apply retracted_of_mem a W ha
      rcases List.sublist_cons_iff.1 (h a (List.mem_cons_self _ _) hp') with hs | ⟨t, ht, hs⟩
      · exact absurd (hs.subset (List.mem_cons_self _ _)) ha
      · have ht' : t = ["~" ++ a] := (List.cons.inj ht).2.symm
        rw [ht'] at hs
        exact List.singleton_sublist.1 hs

/-- A list of plain entries followed by a part that cancels itself and none of them:
`sanitize` returns the plain part. -/
theorem sanitize_append_of_nil (R W : List String)
    (hR : ∀ r ∈ R, HasPrefix r "~" = false) (hRW : ∀ r ∈ R, "~" ++ r ∉ W)
    (hW : sanitize W = []) : sanitize (R ++ W) = R := by
  induction R with
  | nil => rw [List.nil_append, hW]
  | cons r R ih =>
    rw [List.cons_append, sanitize_cons, if_neg, ih
      (fun s hs => hR s (List.mem_cons_of_mem _ hs))
      (fun s hs => hRW s (List.mem_cons_of_mem _ hs))]
    rintro (h | h)
    · rw [hR r (List.mem_cons_self _ _)] at h
      exact absurd h Bool.false_ne_true
    · rcases List.mem_append.1 (mem_of_retracted r _ h) with hm | hm
      · have := hR _ (List.mem_cons_of_mem _ hm)
        rw [hasPrefix_marker] at this
        exact absurd this (by decide)
      · exact hRW r (List.mem_cons_self _ _) hm

/-- C11, amended: when no retraction marker in `A ++ B` is followed later by the plain entry
it targets (for every earlier entry `a` and later plain entry `b` of `A ++ B`, `a` is not
`"~" ++ b`), merging `B` a second time changes nothing. -/
theorem C11_repeated_override (A B : List String)
    (hAB : (A ++ B).Pairwise fun a b => HasPrefix b "~" = false → a ≠ "~" ++ b) :
    mergeStringArrayExcludingDuplicateValues
        [mergeStringArrayExcludingDuplicateValues [A, B], B]
      = mergeStringArrayExcludingDuplicateValues [A, B] := by
  -- the hypothesis, for any part of `A ++ B`
  have hno : ∀ l : List String, l.Sublist (A ++ B) → ∀ t, HasPrefix t "~" = false →
      ¬ ["~" ++ t, t].Sublist l := by
    intro l hl t hp hs
    exact List.pairwise_pair.1 (hAB.sublist (hs.trans hl)) hp rfl
  -- the first merge: `all = U ++ V`, first occurrences in `A`, then the new ones in `B`
  obtain ⟨i1, _, _, n1⟩ := appendNew_spec A ([], []) (by simp)
  obtain ⟨U, hU, hUA⟩ := appendNew_sublist A ([], [])
  obtain ⟨_, _, a2, n2⟩ := appendNew_spec B (appendNew ([], []) A) i1
  obtain ⟨V, hV, hVB⟩ := appendNew_sublist B (appendNew ([], []) A)
  have hU' : (appendNew ([], []) A).1 = U := by rw [hU]; rfl
  rw [hU'] at hV
  have hD : mergeStringArrayExcludingDuplicateValues [A, B] = sanitize (U ++ V) := by
    rw [mergeExcluding_eq]
    show sanitize (appendNew (appendNew ([], []) A) B).1 = _
    rw [hV]
  have hDn : (U ++ V).Nodup := by
    rw [← hV]
    exact n2 (n1 List.nodup_nil)
  have hDsub : (U ++ V).Sublist (A ++ B) := hUA.append hVB
  have hBD : ∀ s ∈ B, s ∈ U ++ V := by
    intro s hs
    rw [← hV]
    exact a2 s hs
  -- the second merge: `all = R ++ W` with `W` the entries of `B` that `R` lacks
  have hRn : (sanitize (U ++ V)).Nodup := (sanitize_sublist _).nodup hDn
  have hRplain := sanitize_no_marker (U ++ V)
  have hR0 : appendNew ([], []) (sanitize (U ++ V))
      = (sanitize (U ++ V), (sanitize (U ++ V)).reverse ++ []) := by
    rw [appendNew_of_nodup _ _ hRn (by simp)]
    rfl
  obtain ⟨_, ⟨W0, hW0, hWR0⟩, a3, n3⟩ :=
    appendNew_spec B (sanitize (U ++ V), (sanitize (U ++ V)).reverse ++ []) (by simp)
  obtain ⟨W, hW, hWB⟩ :=
    appendNew_sublist B (sanitize (U ++ V), (sanitize (U ++ V)).reverse ++ [])
  have hWW : W0 = W := List.append_cancel_left (hW0.symm.trans hW)
  have hWR : ∀ w ∈ W, w ∉ sanitize (U ++ V) := fun w hw => (hWR0 w (hWW ▸ hw)).2
  have hBRW : ∀ s ∈ B, s ∈ sanitize (U ++ V) ++ W := by
    intro s hs
    have := a3 s hs
    rwa [hW] at this
  have hWn : W.Nodup := by
    have := n3 hRn
    rw [hW] at this
    exact (List.nodup_append.1 this).2.1
  have hmarker : ∀ t, HasPrefix ("~" ++ t) "~" = false → False := by
    intro t ht
    rw [hasPrefix_marker] at ht
    exact absurd ht (by decide)
  rw [hD, mergeExcluding_eq]
  show sanitize (appendNew (appendNew ([], []) (sanitize (U ++ V))) B).1 = _
  rw [hR0, hW]
  apply sanitize_append_of_nil _ _ hRplain
  · -- no kept entry has its marker among the entries added by the second merge
    intro r hr hm
    have hrD : r ∈ U ++ V := (sanitize_sublist _).subset hr
    have hmD : "~" ++ r ∈ U ++ V := hBD _ (hWB.subset hm)
    rcases pair_sublist_of_mem _ r ("~" ++ r) (fun e => marker_ne r e.symm) hrD hmD with h | h
    · exact not_sublist_of_mem_sanitize _ r hDn hr h
    · exact hno _ hDsub r (hRplain r hr) h
  · -- every plain entry added by the second merge is followed by its marker
    apply sanitize_eq_nil W hWn
    intro w hw hp
    have hwB : w ∈ B := hWB.subset hw
    have hmD : "~" ++ w ∈ U ++ V := by
      by_contra hm
      exact hWR w hw (mem_sanitize_of_no_marker _ w (hBD w hwB) hp hm)
    have hmV : "~" ++ w ∈ V := by
      rcases List.mem_append.1 hmD with h | h
      · exfalso
        exact hno _ (List.Sublist.refl _) w hp
          ((List.singleton_sublist.2 (hUA.subset h)).append (List.singleton_sublist.2 hwB))
      · exact h
    have hmW : "~" ++ w ∈ W := by
      rcases List.mem_append.1 (hBRW _ (hVB.subset hmV)) with h | h
      · exact (hmarker w (hRplain _ h)).elim
      · exact h
    rcases pair_sublist_of_mem W w ("~" ++ w) (fun e => marker_ne w e.symm) hw hmW with h | h
    · exact h
    · exact absurd h (hno W (hWB.trans (List.sublist_append_right A B)) w hp)

/-- Instance of C11 (amended) at `A = ["x", "~x", "y"]`, `B = ["~y", "w"]`, where `A` holds a
marker and `B` retracts an entry of `A`: both merges give `["w"]`. -/
theorem C11_repeated_override_witness :
    mergeStringArrayExcludingDuplicateValues
        [mergeStringArrayExcludingDuplicateValues [["x", "~x", "y"], ["~y", "w"]], ["~y", "w"]]
      = mergeStringArrayExcludingDuplicateValues [["x", "~x", "y"], ["~y", "w"]] ∧
    mergeStringArrayExcludingDuplicateValues [["x", "~x", "y"], ["~y", "w"]] = ["w"] :=
  ⟨C11_repeated_override ["x", "~x", "y"] ["~y", "w"] (by decide), by decide⟩

/-- The amended C11 covers the case of a base list without markers and an override in which
no entry occurs together with its own marker. -/
theorem repeated_override_of_plain_base (A B : List String)
    (hA : ∀ s ∈ A, HasPrefix s "~" = false) (hB : ∀ x ∈ B, "~" ++ x ∉ B) :
    (A ++ B).Pairwise fun a b => HasPrefix b "~" = false → a ≠ "~" ++ b := by
  rw [List.pairwise_iff_forall_sublist]
  intro a b hs _ hab
  have ha : a ∈ A ++ B := hs.subset (List.mem_cons_self _ _)
  have hb : b ∈ A ++ B := hs.subset (List.mem_cons_of_mem _ (List.mem_cons_self _ _))
  rcases List.mem_append.1 ha with haA | haB
  · have := hA a haA
    rw [hab, hasPrefix_marker] at this
    exact absurd this (by decide)
  · rcases List.mem_append.1 hb with hbA | hbB
    · -- `a` in `B` comes after every entry of `A`
      have hbn : b ∉ B := fun h => hB b h (hab ▸ haB)
      have hcount : [a, b].Sublist (A ++ B) := hs
      rw [List.sublist_append_iff] at hcount
      obtain ⟨l1, l2, hl, h1, h2⟩ := hcount
      have hb2 : b ∉ l2 := fun h => hbn (h2.subset h)
      have ha1 : a ∉ l1 := by
        intro h
        have := hA a (h1.subset h)
        rw [hab, hasPrefix_marker] at this
        exact absurd this (by decide)
      cases l1 with
      | nil =>
        rw [List.nil_append] at hl
        exact hb2 (hl ▸ List.mem_cons_of_mem _ (List.mem_cons_self _ _))
      | cons c l1 =>
        have hc : a = c := (List.cons.inj hl).1
        exact ha1 (hc ▸ List.mem_cons_self _ _)
    · exact hB b hbB (hab ▸ haB)

end Vcfg
